import Mathlib

/-!
# Verification of `big_num.c` (128-bit integer runtime helpers)

A shallow embedding of `src/c/big_num.c`.  Machine integers are natural numbers
holding the bit pattern of the C value; every C operation that can wrap is
written with an explicit reduction modulo `2^64` or `2^128`.  Operations that
are undefined in C (division by zero, `__builtin_clzll(0)`, shifts by a count
outside the operand width) make the embedded function return an error that
says which of them was reached.
-/

namespace BigNum

/-! ## Machine words -/

/-- Number of values of a `du_int` (`uint64_t`). -/
abbrev W64 : Nat := 2 ^ 64

/-- Number of values of a `tu_int` / `ti_int` (128-bit integers). -/
abbrev W128 : Nat := 2 ^ 128

/-- Places in the source where an integer division is executed. -/
inductive DivSite where
  | highByLow
  | q1Estimate
  | q0Estimate
  deriving DecidableEq

/-- Ways in which an execution leaves the defined behaviour of C. -/
inductive Fault where
  | divByZero (site : DivSite)
  | clzOfZero
  | shiftRange
  | divideError
  | loopBound
  deriving DecidableEq

/-- Wrapping `du_int` addition. -/
def add64 (x y : Nat) : Nat := (x + y) % W64

/-- Wrapping `du_int` subtraction. -/
def sub64 (x y : Nat) : Nat := (x + (W64 - y % W64)) % W64

/-- Wrapping `du_int` multiplication. -/
def mul64 (x y : Nat) : Nat := (x * y) % W64

/-- Left shift of a `du_int` by a count below the width: bits shifted out are lost. -/
def shl64 (x s : Nat) : Nat := (x <<< s) % W64

/-- Right shift of a `du_int` by a count below the width. -/
def shr64 (x s : Nat) : Nat := x >>> s

/-- A shift count that is not below the operand width is undefined behaviour. -/
def checkShift (width : Nat) (s : Int) : Except Fault Nat :=
  if 0 ≤ s ∧ s < width then .ok s.toNat else .error .shiftRange

/-- Wrapping `tu_int` addition. -/
def add128 (x y : Nat) : Nat := (x + y) % W128

/-- Wrapping `tu_int` subtraction. -/
def sub128 (x y : Nat) : Nat := (x + (W128 - y % W128)) % W128

/-- Wrapping negation of a 128-bit pattern. -/
def neg128 (x : Nat) : Nat := (W128 - x % W128) % W128

/-- Two's-complement value of a 128-bit pattern (`ti_int` reading of the bits). -/
def toInt128 (x : Nat) : Int := if x < 2 ^ 127 then (x : Int) else (x : Int) - (W128 : Int)

/-- Bit pattern of a `ti_int` value. -/
def ofInt128 (i : Int) : Nat := (i % (W128 : Int)).toNat

/-- Arithmetic right shift of a `ti_int`, on bit patterns: shift the signed
value, keep the bits. -/
def sar128 (x n : Nat) : Nat := ofInt128 (toInt128 x >>> n)

/-- The `low` field of a `utwords` / `twords` union whose `all` member is `x`
(little-endian layout). -/
def lowOf (x : Nat) : Nat := x % W64

/-- The `high` field of a `utwords` / `twords` union whose `all` member is `x`. -/
def highOf (x : Nat) : Nat := x / W64 % W64

/-- The `all` member of a union whose fields are `low` and `high`. -/
def mkWords (low high : Nat) : Nat := high * W64 + low

/-- Number of zero bits of `x` above its highest set bit, among the low `n` bits
(scanning from bit `n - 1` downwards). -/
def leadingZeros (x : Nat) : Nat → Nat
  | 0 => 0
  | n + 1 => if x.testBit n then 0 else leadingZeros x n + 1

/-- `__builtin_clzll`: count of leading zero bits of a nonzero 64-bit value;
undefined at zero. -/
def clzll (x : Nat) : Except Fault Nat :=
  if x = 0 then .error .clzOfZero else .ok (leadingZeros x 64)

/-! ## `udiv128by64to64default` -/

/-- The quotient-digit correction loop
`while (q >= b || q * vn0 > b * rhat + un) { q = q - 1; rhat = rhat + vn1; if (rhat >= b) break; }`
of `udiv128by64to64default`.  It returns the final `q`, the final `rhat` and the
number of times the body ran.  The first argument bounds the number of
iterations; running out is reported as `Fault.loopBound`. -/
def correctionLoop (b vn1 vn0 un : Nat) : Nat → Nat → Nat → Nat → Except Fault (Nat × Nat × Nat)
  | 0, _, _, _ => .error .loopBound
  | fuel + 1, q, rhat, n =>
    if q ≥ b ∨ mul64 q vn0 > add64 (mul64 b rhat) un then
      let q := sub64 q 1
      let rhat := add64 rhat vn1
      if rhat ≥ b then .ok (q, rhat, n + 1)
      else correctionLoop b vn1 vn0 un fuel q rhat (n + 1)
    else .ok (q, rhat, n)

/-- Values computed by `udiv128by64to64default` on the way to its result. -/
structure DivTrace where
  s : Nat
  v : Nat
  un64 : Nat
  un10 : Nat
  qhat1 : Nat
  q1 : Nat
  iters1 : Nat
  un21 : Nat
  qhat0 : Nat
  q0 : Nat
  iters0 : Nat
  rnorm : Nat
  quot : Nat
  r : Nat
  deriving DecidableEq

/-- Normalisation step of `udiv128by64to64default` (the `clz` and the `if (s > 0)`
statement): the shift count, the normalised divisor, `un64` and `un10`. -/
def udivNormalize (u1 u0 v : Nat) : Except Fault (Nat × Nat × Nat × Nat) := do
  let n_udword_bits := 8 * 8
  let s ← clzll v
  if s > 0 then
    let sl ← checkShift 64 s
    let sr ← checkShift 64 ((n_udword_bits : Int) - s)
    pure (s, shl64 v sl, shl64 u1 sl ||| shr64 u0 sr, shl64 u0 sl)
  else
    pure (s, v, u1, u0)

/-- Integer division of `du_int` values at the given place of the source;
dividing by zero is undefined behaviour. -/
def checkedDiv (site : DivSite) (x y : Nat) : Except Fault Nat :=
  if y = 0 then .error (.divByZero site) else .ok (x / y)

/-- One quotient digit of `udiv128by64to64default`.  The source runs this block
twice, for `q1` (with `un = un64`, `d = un1`) and for `q0` (with `un = un21`,
`d = un0`):
`q = un / vn1; rhat = un - q * vn1; while (...) { ... }` followed by the
expression `un * b + d - q * v`.  The result is the estimate `un / vn1`, the
corrected digit, the number of loop iterations and the value of that expression.
The loop is given `q + 1` iterations: every iteration decrements `q`, and the
loop condition is false at `q = 0`. -/
def quotientDigit (site : DivSite) (b v vn1 vn0 un d : Nat) :
    Except Fault (Nat × Nat × Nat × Nat) := do
  let qhat ← checkedDiv site un vn1
  let rhat := sub64 un (mul64 qhat vn1)
  let (q, _, iters) ← correctionLoop b vn1 vn0 d (qhat + 1) qhat rhat 0
  pure (qhat, q, iters, sub64 (add64 (mul64 un b) d) (mul64 q v))

/-- The rest of `udiv128by64to64default`, from the split into 32-bit digits to
the end, on the normalised operands; it keeps the intermediate values. -/
def udivDigits (s v un64 un10 : Nat) : Except Fault DivTrace := do
  let n_udword_bits := 8 * 8
  let b := shl64 1 (n_udword_bits / 2)
  let vn1 := shr64 v (n_udword_bits / 2)
  let vn0 := v &&& 0xFFFFFFFF
  let un1 := shr64 un10 (n_udword_bits / 2)
  let un0 := un10 &&& 0xFFFFFFFF
  let (qhat1, q1, iters1, un21) ← quotientDigit .q1Estimate b v vn1 vn0 un64 un1
  let (qhat0, q0, iters0, rnorm) ← quotientDigit .q0Estimate b v vn1 vn0 un21 un0
  let sr ← checkShift 64 s
  pure ⟨s, v, un64, un10, qhat1, q1, iters1, un21, qhat0, q0, iters0, rnorm,
        add64 (mul64 q1 b) q0, shr64 rnorm sr⟩

/-- Body of `udiv128by64to64default`, keeping the intermediate values. -/
def udiv128by64to64defaultTrace (u1 u0 v : Nat) : Except Fault DivTrace := do
  let (s, v, un64, un10) ← udivNormalize u1 u0 v
  udivDigits s v un64 un10

/-- `udiv128by64to64default(u1, u0, v, &r)`: the returned quotient and the value
stored through `r`. -/
def udiv128by64to64default (u1 u0 v : Nat) : Except Fault (Nat × Nat) :=
  (udiv128by64to64defaultTrace u1 u0 v).map fun t => (t.quot, t.r)

/-- The x86-64 instruction `divq v` with `rdx = u1` and `rax = u0`: it divides the
128-bit value `rdx:rax` by `v`, leaves the quotient in `rax` and the remainder in
`rdx`, and raises a divide error when `v` is zero or the quotient does not fit
in 64 bits. -/
def divq (u1 u0 v : Nat) : Except Fault (Nat × Nat) :=
  if v = 0 ∨ (u1 * W64 + u0) / v ≥ W64 then .error .divideError
  else .ok ((u1 * W64 + u0) / v, (u1 * W64 + u0) % v)

/-- `udiv128by64to64(u1, u0, v, &r)`.  The flag is the preprocessor condition
`defined(__x86_64__)`. -/
def udiv128by64to64 (x86_64 : Bool) (u1 u0 v : Nat) : Except Fault (Nat × Nat) :=
  if x86_64 then divq u1 u0 v else udiv128by64to64default u1 u0 v

/-! ## `__udivmodti4` and `__udivti3` -/

/-- The selection mask of the long-division loop,
`(ti_int)(divisor.all - dividend.all - 1) >> (n_utword_bits - 1)`. -/
def longDivMask (dividend divisor : Nat) : Nat :=
  let n_utword_bits := 16 * 8
  sar128 (sub128 (sub128 divisor dividend) 1) (n_utword_bits - 1)

/-- State of the long-division loop of `__udivmodti4`: the `all` members of the
unions `dividend`, `divisor` and `quotient`. -/
structure LongDivState where
  dividend : Nat
  divisor : Nat
  quotient : Nat
  deriving DecidableEq

/-- One run of the body of the long-division loop of `__udivmodti4`. -/
def longDivStep (st : LongDivState) : LongDivState :=
  let quotient := mkWords (shl64 (lowOf st.quotient) 1) (highOf st.quotient)
  let s := longDivMask st.dividend st.divisor
  let quotient := mkWords (lowOf (lowOf quotient ||| (s &&& 1))) (highOf quotient)
  let dividend := sub128 st.dividend (st.divisor &&& s)
  let divisor := st.divisor >>> 1
  ⟨dividend, divisor, quotient⟩

/-- The loop `for (; shift >= 0; --shift) { ... }` of `__udivmodti4`; the first
argument is `shift + 1`, the number of iterations left. -/
def longDivLoop : Nat → LongDivState → LongDivState
  | 0, st => st
  | n + 1, st => longDivLoop n (longDivStep st)

/-- The value stored through `rem` by `if (rem) *rem = x;`. -/
def storeRem (rem : Bool) (x : Nat) : Option Nat := if rem then some x else none

/-- The branch of `__udivmodti4` for a divisor whose high word is zero. -/
def udivmodNarrow (x86_64 : Bool) (dividend divisor : Nat) (rem : Bool) :
    Except Fault (Nat × Option Nat) :=
  let remainder_high := 0
  if highOf dividend < lowOf divisor then do
    let (quotient_low, remainder_low) ←
      udiv128by64to64 x86_64 (highOf dividend) (lowOf dividend) (lowOf divisor)
    let quotient_high := 0
    pure (mkWords quotient_low quotient_high,
          storeRem rem (mkWords remainder_low remainder_high))
  else do
    let quotient_high ← checkedDiv .highByLow (highOf dividend) (lowOf divisor)
    let dividend := mkWords (lowOf dividend) (highOf dividend % lowOf divisor)
    let (quotient_low, remainder_low) ←
      udiv128by64to64 x86_64 (highOf dividend) (lowOf dividend) (lowOf divisor)
    pure (mkWords quotient_low quotient_high,
          storeRem rem (mkWords remainder_low remainder_high))

/-- The branch of `__udivmodti4` for a divisor with a nonzero high word: binary
long division. -/
def udivmodWide (dividend divisor : Nat) (rem : Bool) : Except Fault (Nat × Option Nat) := do
  let c1 ← clzll (highOf divisor)
  let c2 ← clzll (highOf dividend)
  let shift : Int := (c1 : Int) - (c2 : Int)
  let sh ← checkShift 128 shift
  let divisor := (divisor <<< sh) % W128
  let quotient := mkWords 0 0
  let st := longDivLoop (shift + 1).toNat ⟨dividend, divisor, quotient⟩
  pure (st.quotient, storeRem rem st.dividend)

/-- `__udivmodti4(a, b, rem)`.  `rem` tells whether the pointer is non-null; the
result is the returned quotient and the value stored through `rem`, if any. -/
def __udivmodti4 (x86_64 : Bool) (a b : Nat) (rem : Bool) :
    Except Fault (Nat × Option Nat) :=
  let dividend := a
  let divisor := b
  if divisor > dividend then .ok (0, storeRem rem dividend)
  else if highOf divisor = 0 then udivmodNarrow x86_64 dividend divisor rem
  else udivmodWide dividend divisor rem

/-- `__udivti3(a, b)`. -/
def __udivti3 (x86_64 : Bool) (a b : Nat) : Except Fault Nat :=
  (__udivmodti4 x86_64 a b false).map Prod.fst

/-! ## `__divti3` -/

/-- The macro `COMPUTE_UDIV(a, b)`, which is `__udivmodti4((a), (b), (tu_int *)0)`. -/
def COMPUTE_UDIV (x86_64 : Bool) (a b : Nat) : Except Fault Nat :=
  (__udivmodti4 x86_64 a b false).map Prod.fst

/-- `__divXi3(a, b)` on the bit patterns of the `ti_int` arguments and result. -/
def __divXi3 (x86_64 : Bool) (a b : Nat) : Except Fault Nat := do
  let N := 16 * 8 - 1
  let s_a := sar128 a N
  let s_b := sar128 b N
  let a_u := add128 (a ^^^ s_a) (neg128 s_a)
  let b_u := add128 (b ^^^ s_b) (neg128 s_b)
  let s_a := s_a ^^^ s_b
  let q ← COMPUTE_UDIV x86_64 a_u b_u
  return add128 (q ^^^ s_a) (neg128 s_a)

/-- `__divti3(a, b)` on bit patterns. -/
def __divti3 (x86_64 : Bool) (a b : Nat) : Except Fault Nat := __divXi3 x86_64 a b

/-! ## `__mulddi3` and `__multi3` -/

/-- `__mulddi3(a, b)`: the bit pattern of the returned `ti_int`. -/
def __mulddi3 (a b : Nat) : Nat :=
  let bits_in_dword_2 := (8 * 8) / 2
  let lower_mask := shr64 (W64 - 1) bits_in_dword_2
  let low := mul64 (a &&& lower_mask) (b &&& lower_mask)
  let t := shr64 low bits_in_dword_2
  let low := low &&& lower_mask
  let t := add64 t (mul64 (shr64 a bits_in_dword_2) (b &&& lower_mask))
  let low := add64 low (shl64 (t &&& lower_mask) bits_in_dword_2)
  let high := shr64 t bits_in_dword_2
  let t := shr64 low bits_in_dword_2
  let low := low &&& lower_mask
  let t := add64 t (mul64 (shr64 b bits_in_dword_2) (a &&& lower_mask))
  let low := add64 low (shl64 (t &&& lower_mask) bits_in_dword_2)
  let high := add64 high (shr64 t bits_in_dword_2)
  let high := add64 high (mul64 (shr64 a bits_in_dword_2) (shr64 b bits_in_dword_2))
  mkWords low high

/-- `__multi3(a, b)` on the bit patterns of the `ti_int` arguments and result. -/
def __multi3 (a b : Nat) : Nat :=
  let r := __mulddi3 (lowOf a) (lowOf b)
  mkWords (lowOf r)
    (add64 (highOf r) (add64 (mul64 (highOf a) (lowOf b)) (mul64 (lowOf a) (highOf b))))

/-! ## Instrumented views of the code, for statements about intermediate values -/

/-- `__mulddi3(a, b)` once more, with a record of its arithmetic: the first
component lists, in program order, the exact value of every multiplication,
addition and left shift the function executes on its 64-bit operands, before
the reduction modulo `2^64` that the machine applies
(`p0`, `p1`, `t + p1`, `(t & mask) << 32`, `low + ...`, `p2`, `t + p2`,
`(t & mask) << 32`, `low + ...`, `high + (t >> 32)`, `p3`, `high + p3`);
the second component is the returned value. -/
def mulddi3Ops (a b : Nat) : List Nat × Nat :=
  let bits_in_dword_2 := (8 * 8) / 2
  let lower_mask := shr64 (W64 - 1) bits_in_dword_2
  let p0 := (a &&& lower_mask) * (b &&& lower_mask)
  let low := p0 % W64
  let t := shr64 low bits_in_dword_2
  let low := low &&& lower_mask
  let p1 := shr64 a bits_in_dword_2 * (b &&& lower_mask)
  let s1 := t + p1 % W64
  let t := s1 % W64
  let sh1 := (t &&& lower_mask) <<< bits_in_dword_2
  let l1 := low + sh1 % W64
  let low := l1 % W64
  let high := shr64 t bits_in_dword_2
  let t := shr64 low bits_in_dword_2
  let low := low &&& lower_mask
  let p2 := shr64 b bits_in_dword_2 * (a &&& lower_mask)
  let s2 := t + p2 % W64
  let t := s2 % W64
  let sh2 := (t &&& lower_mask) <<< bits_in_dword_2
  let l2 := low + sh2 % W64
  let low := l2 % W64
  let h1 := high + shr64 t bits_in_dword_2
  let high := h1 % W64
  let p3 := shr64 a bits_in_dword_2 * shr64 b bits_in_dword_2
  let h2 := high + p3 % W64
  let high := h2 % W64
  ([p0, p1, s1, sh1, l1, p2, s2, sh2, l2, h1, p3, h2], mkWords low high)

/-- The value of `shift` computed by `__udivmodti4` on its long-division branch,
`__builtin_clzll(divisor.s.high) - __builtin_clzll(dividend.s.high)`, when it is
not negative. -/
def longDivShift (a b : Nat) : Nat :=
  leadingZeros (highOf b) 64 - leadingZeros (highOf a) 64

/-- The state of the long-division loop of `__udivmodti4(a, b, rem)` after `k`
runs of its body: it starts from the dividend `a`, the divisor shifted left by
`shift`, and the quotient `0`. -/
def longDivStateAt (a b k : Nat) : LongDivState :=
  longDivLoop k ⟨a, (b <<< longDivShift a b) % W128, mkWords 0 0⟩

/-- What holds of the loop state when `j + 1` iterations are left: the divisor
is `b` shifted left by `j`, the running dividend is below twice the divisor,
both fit in 128 bits and differ by at most `2^127`, and the quotient has room for
the remaining bits. -/
def LongDivInv (b : Nat) (st : LongDivState) (j : Nat) : Prop :=
  st.divisor = b * 2 ^ j ∧ st.dividend < 2 * st.divisor ∧ st.dividend < 2 ^ 128 ∧
    st.divisor < 2 ^ 128 ∧ st.divisor ≤ st.dividend + 2 ^ 127 ∧
    (st.quotient + 1) * 2 ^ (j + 1) ≤ 2 ^ 64

/-- The arguments `(u1, u0, v)` that the branch of `__udivmodti4` for a divisor
with zero high word passes to `udiv128by64to64`: `dividend.s.high` in the first
sub-case, and `dividend.s.high % divisor.s.low` after the update of
`dividend.s.high` in the second. -/
def narrowCallArgs (dividend divisor : Nat) : Nat × Nat × Nat :=
  if highOf dividend < lowOf divisor then
    (highOf dividend, lowOf dividend, lowOf divisor)
  else
    let dividend := mkWords (lowOf dividend) (highOf dividend % lowOf divisor)
    (highOf dividend, lowOf dividend, lowOf divisor)

deriving instance DecidableEq for Except

end BigNum

namespace BigNum

/-! ## Facts about the machine operations -/

theorem leadingZeros_spec (x : Nat) :
    ∀ n, x ≠ 0 → x < 2 ^ n →
      leadingZeros x n < n ∧ 2 ^ n ≤ 2 * (x * 2 ^ leadingZeros x n) ∧
        x * 2 ^ leadingZeros x n < 2 ^ n := by
  intro n
  induction n with
  | zero => intro h0 h; simp at h; exact absurd h h0
  | succ n ih =>
    intro h0 h
    unfold leadingZeros
    by_cases hb : x.testBit n = true
    · have hge := Nat.testBit_implies_ge hb
      simp only [hb, if_true, pow_zero, mul_one]
      refine ⟨Nat.succ_pos n, ?_, h⟩
      rw [pow_succ]; omega
    · have hlt : x < 2 ^ n := by
        by_contra hcon
        have hle : 2 ^ n ≤ x := Nat.le_of_not_lt hcon
        have h2 : x < 2 ^ (n + 1) := h
        apply hb
        rw [Nat.testBit_to_div_mod]
        have hd : x / 2 ^ n = 1 := by
          apply Nat.div_eq_of_lt_le
          · simpa using hle
          · rw [pow_succ] at h2; omega
        simp [hd]
      obtain ⟨i1, i2, i3⟩ := ih h0 hlt
      simp only [hb, Bool.false_eq_true, if_false]
      refine ⟨by omega, ?_, ?_⟩
      · rw [pow_succ, pow_succ]; nlinarith
      · rw [pow_succ, pow_succ]; nlinarith

/-! ## The quotient-digit correction loop -/

/-- One quotient digit of Algorithm D.  `un` is the running two-digit remainder
prefix (below the divisor `v`), `d` the next dividend digit; the loop started at
an estimate `q` that is not below the true digit ends with the true digit, and
it runs once per unit of the estimate's excess. -/
theorem correctionLoop_spec (v vn1 vn0 un d : Nat)
    (hvn1 : vn1 < 2 ^ 32) (hvn0 : vn0 < 2 ^ 32) (hd : d < 2 ^ 32)
    (hv : v = vn1 * 2 ^ 32 + vn0) (hun : un < v) :
    ∀ fuel q rhat n, q < fuel → q * vn1 + rhat = un → rhat < 2 ^ 32 →
      (un * 2 ^ 32 + d) / v ≤ q → q ≤ 2 ^ 32 + 1 →
      ∃ rhat', correctionLoop (2 ^ 32) vn1 vn0 d fuel q rhat n =
        .ok ((un * 2 ^ 32 + d) / v, rhat', n + (q - (un * 2 ^ 32 + d) / v)) := by
  have hvpos : 0 < v := by omega
  have hQ1 : (un * 2 ^ 32 + d) / v * v ≤ un * 2 ^ 32 + d := Nat.div_mul_le_self _ _
  have hQ2 : un * 2 ^ 32 + d < ((un * 2 ^ 32 + d) / v + 1) * v := by
    have h1 := Nat.div_add_mod (un * 2 ^ 32 + d) v
    have h2 := Nat.mod_lt (un * 2 ^ 32 + d) hvpos
    nlinarith
  have hQb : (un * 2 ^ 32 + d) / v < 2 ^ 32 := by
    rw [Nat.div_lt_iff_lt_mul hvpos]
    have : (un + 1) * 2 ^ 32 ≤ v * 2 ^ 32 := Nat.mul_le_mul_right _ hun
    omega
  generalize (un * 2 ^ 32 + d) / v = Q at hQ1 hQ2 hQb ⊢
  intro fuel
  induction fuel with
  | zero => intro q rhat n hq; omega
  | succ fuel ih =>
    intro q rhat n hq hinv hr hQ hqb
    have hqv : q * v = (q * vn1) * 2 ^ 32 + q * vn0 := by rw [hv]; ring
    have hadd : add64 (mul64 (2 ^ 32) rhat) d = 2 ^ 32 * rhat + d := by
      unfold add64 mul64 W64; omega
    unfold correctionLoop
    by_cases hc : q ≥ 2 ^ 32 ∨ mul64 q vn0 > add64 (mul64 (2 ^ 32) rhat) d
    · rw [if_pos hc]
      have hlt : Q < q := by
        rcases hc with hc | hc
        · omega
        · by_contra hcon
          have hqQ : q ≤ Q := Nat.le_of_not_lt hcon
          have hqb2 : q < 2 ^ 32 := by omega
          have hmul : q * vn0 < 2 ^ 32 * 2 ^ 32 := Nat.mul_lt_mul'' hqb2 hvn0
          have hm : mul64 q vn0 = q * vn0 := by unfold mul64 W64; omega
          rw [hm, hadd] at hc
          have hle : q * v ≤ Q * v := Nat.mul_le_mul_right _ hqQ
          omega
      have hs : sub64 q 1 = q - 1 := by unfold sub64 W64; omega
      have ha : add64 rhat vn1 = rhat + vn1 := by unfold add64 W64; omega
      simp only [hs, ha]
      have hinv2 : (q - 1) * vn1 + (rhat + vn1) = un := by
        have : q = (q - 1) + 1 := by omega
        rw [this] at hinv
        rw [← hinv]; ring
      by_cases hb : rhat + vn1 ≥ 2 ^ 32
      · rw [if_pos hb]
        have hq1 : q - 1 = Q := by
          apply Nat.le_antisymm _ (by omega)
          have hqv2 : (q - 1) * v = ((q - 1) * vn1) * 2 ^ 32 + (q - 1) * vn0 := by
            rw [hv]; ring
          have hmul : (q - 1) * vn0 ≤ 2 ^ 32 * vn0 := Nat.mul_le_mul_right _ (by omega)
          have hle : (q - 1) * v ≤ un * 2 ^ 32 + d := by
            have h3 : ((q - 1) * vn1 + (rhat + vn1)) * 2 ^ 32 = un * 2 ^ 32 := by rw [hinv2]
            have h4 : ((q - 1) * vn1 + (rhat + vn1)) * 2 ^ 32 =
                ((q - 1) * vn1) * 2 ^ 32 + (rhat + vn1) * 2 ^ 32 := by ring
            omega
          by_contra hcon
          have hge : (Q + 1) * v ≤ (q - 1) * v := Nat.mul_le_mul_right _ (by omega)
          omega
        refine ⟨rhat + vn1, ?_⟩
        have : q - Q = 1 := by omega
        rw [hq1, this]
      · rw [if_neg hb]
        obtain ⟨r', hr'⟩ := ih (q - 1) (rhat + vn1) (n + 1) (by omega) hinv2 (by omega)
          (by omega) (by omega)
        refine ⟨r', ?_⟩
        rw [hr']
        have : n + 1 + (q - 1 - Q) = n + (q - Q) := by omega
        rw [this]
    · rw [if_neg hc]
      have hqb2 : q < 2 ^ 32 := by omega
      have hmul : q * vn0 < 2 ^ 32 * 2 ^ 32 := Nat.mul_lt_mul'' hqb2 hvn0
      have hm : mul64 q vn0 = q * vn0 := by unfold mul64 W64; omega
      rw [hm, hadd] at hc
      have hqQ : q = Q := by
        apply Nat.le_antisymm _ hQ
        by_contra hcon
        have hge : (Q + 1) * v ≤ q * v := Nat.mul_le_mul_right _ (by omega)
        have h3 : (q * vn1 + rhat) * 2 ^ 32 = un * 2 ^ 32 := by rw [hinv]
        have h4 : (q * vn1 + rhat) * 2 ^ 32 = (q * vn1) * 2 ^ 32 + rhat * 2 ^ 32 := by ring
        omega
      refine ⟨rhat, ?_⟩
      rw [hqQ]; simp

/-- The block that computes one quotient digit returns the true digit
`(un * 2^32 + d) / v` and the true partial remainder `(un * 2^32 + d) % v`,
for a normalised divisor `v` and a prefix `un` below `v`. -/
theorem quotientDigit_spec (site : DivSite) (v un d : Nat)
    (hv1 : 2 ^ 63 ≤ v) (hv2 : v < 2 ^ 64) (hun : un < v) (hd : d < 2 ^ 32) :
    quotientDigit site (2 ^ 32) v (v / 2 ^ 32) (v % 2 ^ 32) un d =
      .ok (un / (v / 2 ^ 32), (un * 2 ^ 32 + d) / v,
           un / (v / 2 ^ 32) - (un * 2 ^ 32 + d) / v, (un * 2 ^ 32 + d) % v) := by
  have hvn1a : 2 ^ 31 ≤ v / 2 ^ 32 := by omega
  have hvn1b : v / 2 ^ 32 < 2 ^ 32 := by omega
  have hvn0 : v % 2 ^ 32 < 2 ^ 32 := by omega
  have hv : v = v / 2 ^ 32 * 2 ^ 32 + v % 2 ^ 32 := by omega
  have hvpos : 0 < v := by omega
  have hvn1pos : 0 < v / 2 ^ 32 := by omega
  have hq1 : un / (v / 2 ^ 32) * (v / 2 ^ 32) ≤ un := Nat.div_mul_le_self _ _
  have hq2 := Nat.div_add_mod un (v / 2 ^ 32)
  have hq3 := Nat.mod_lt un hvn1pos
  have hqle : un / (v / 2 ^ 32) ≤ 2 ^ 32 + 1 := by
    have : un / (v / 2 ^ 32) < 2 ^ 32 + 2 := by
      rw [Nat.div_lt_iff_lt_mul hvn1pos]; omega
    omega
  have hQ1 : (un * 2 ^ 32 + d) / v * v ≤ un * 2 ^ 32 + d := Nat.div_mul_le_self _ _
  have hQ3 := Nat.div_add_mod (un * 2 ^ 32 + d) v
  have hQ4 := Nat.mod_lt (un * 2 ^ 32 + d) hvpos
  have hQle : (un * 2 ^ 32 + d) / v ≤ un / (v / 2 ^ 32) := by
    rw [Nat.le_div_iff_mul_le hvn1pos]
    have h5 : ∀ Q, Q * v = (Q * (v / 2 ^ 32)) * 2 ^ 32 + Q * (v % 2 ^ 32) := by
      intro Q
      conv_lhs => rw [hv]
      ring
    have h6 := h5 ((un * 2 ^ 32 + d) / v)
    omega
  have hrhat : sub64 un (mul64 (un / (v / 2 ^ 32)) (v / 2 ^ 32)) = un % (v / 2 ^ 32) := by
    have : v / 2 ^ 32 * (un / (v / 2 ^ 32)) = un / (v / 2 ^ 32) * (v / 2 ^ 32) := Nat.mul_comm _ _
    unfold sub64 mul64 W64; omega
  have hinv : un / (v / 2 ^ 32) * (v / 2 ^ 32) + un % (v / 2 ^ 32) = un := by
    rw [Nat.mul_comm]; exact hq2
  obtain ⟨r', hloop⟩ := correctionLoop_spec v (v / 2 ^ 32) (v % 2 ^ 32) un d hvn1b hvn0 hd hv hun
    (un / (v / 2 ^ 32) + 1) (un / (v / 2 ^ 32)) (un % (v / 2 ^ 32)) 0 (by omega) hinv
    (by omega) hQle hqle
  have hrem : sub64 (add64 (mul64 un (2 ^ 32)) d) (mul64 ((un * 2 ^ 32 + d) / v) v) =
      (un * 2 ^ 32 + d) % v := by
    have : v * ((un * 2 ^ 32 + d) / v) = (un * 2 ^ 32 + d) / v * v := Nat.mul_comm _ _
    unfold sub64 add64 mul64 W64; omega
  unfold quotientDigit checkedDiv
  rw [if_neg (by omega)]
  simp only [bind, Except.bind, hrhat, hloop, hrem, pure, Except.pure, Nat.zero_add]

theorem mask32 (x : Nat) : x &&& 0xFFFFFFFF = x % 2 ^ 32 :=
  Nat.and_pow_two_sub_one_eq_mod x 32

theorem shr64_eq (x s : Nat) : shr64 x s = x / 2 ^ s := by
  unfold shr64; rw [Nat.shiftRight_eq_div_pow]

theorem shl64_eq (x s : Nat) : shl64 x s = x * 2 ^ s % W64 := by
  unfold shl64; rw [Nat.shiftLeft_eq]

theorem checkShift_ok (w s : Nat) (h : s < w) : checkShift w (s : Int) = .ok s := by
  unfold checkShift
  rw [if_pos ⟨by omega, by omega⟩]
  simp

/-- Two-digit schoolbook division: dividing the prefix, then the partial
remainder extended by the last digit, gives quotient and remainder of the
whole three-digit number. -/
theorem two_digit_division (v un64 un10 : Nat) (hv : 0 < v) :
    (un64 * 2 ^ 64 + un10) / v =
        (un64 * 2 ^ 32 + un10 / 2 ^ 32) / v * 2 ^ 32 +
          ((un64 * 2 ^ 32 + un10 / 2 ^ 32) % v * 2 ^ 32 + un10 % 2 ^ 32) / v ∧
      (un64 * 2 ^ 64 + un10) % v =
        ((un64 * 2 ^ 32 + un10 / 2 ^ 32) % v * 2 ^ 32 + un10 % 2 ^ 32) % v := by
  rw [Nat.div_mod_unique hv]
  refine ⟨?_, Nat.mod_lt _ hv⟩
  have h1 := Nat.div_add_mod (un64 * 2 ^ 32 + un10 / 2 ^ 32) v
  have h2 := Nat.div_add_mod ((un64 * 2 ^ 32 + un10 / 2 ^ 32) % v * 2 ^ 32 + un10 % 2 ^ 32) v
  generalize (un64 * 2 ^ 32 + un10 / 2 ^ 32) / v = q1 at h1 h2 ⊢
  generalize (un64 * 2 ^ 32 + un10 / 2 ^ 32) % v = un21 at h1 h2 ⊢
  generalize (un21 * 2 ^ 32 + un10 % 2 ^ 32) / v = q0 at h2 ⊢
  generalize (un21 * 2 ^ 32 + un10 % 2 ^ 32) % v = rn at h2 ⊢
  have h3 : v * (q1 * 2 ^ 32 + q0) = (v * q1) * 2 ^ 32 + v * q0 := by ring
  rw [h3]
  omega

/-- The digit part of `udiv128by64to64default` on normalised operands: every
intermediate value and the result. -/
theorem udivDigits_spec (s v un64 un10 : Nat) (hs : s < 64)
    (hv1 : 2 ^ 63 ≤ v) (hv2 : v < 2 ^ 64) (hun : un64 < v) (hun10 : un10 < 2 ^ 64) :
    udivDigits s v un64 un10 = .ok
      ⟨s, v, un64, un10,
       un64 / (v / 2 ^ 32),
       (un64 * 2 ^ 32 + un10 / 2 ^ 32) / v,
       un64 / (v / 2 ^ 32) - (un64 * 2 ^ 32 + un10 / 2 ^ 32) / v,
       (un64 * 2 ^ 32 + un10 / 2 ^ 32) % v,
       (un64 * 2 ^ 32 + un10 / 2 ^ 32) % v / (v / 2 ^ 32),
       ((un64 * 2 ^ 32 + un10 / 2 ^ 32) % v * 2 ^ 32 + un10 % 2 ^ 32) / v,
       (un64 * 2 ^ 32 + un10 / 2 ^ 32) % v / (v / 2 ^ 32) -
         ((un64 * 2 ^ 32 + un10 / 2 ^ 32) % v * 2 ^ 32 + un10 % 2 ^ 32) / v,
       ((un64 * 2 ^ 32 + un10 / 2 ^ 32) % v * 2 ^ 32 + un10 % 2 ^ 32) % v,
       (un64 * 2 ^ 64 + un10) / v,
       (un64 * 2 ^ 64 + un10) % v / 2 ^ s⟩ := by
  have hvpos : 0 < v := by omega
  have hb : shl64 1 (8 * 8 / 2) = 2 ^ 32 := by decide
  have hd1 : un10 / 2 ^ 32 < 2 ^ 32 := by omega
  have hd0 : un10 % 2 ^ 32 < 2 ^ 32 := by omega
  have hun21 : (un64 * 2 ^ 32 + un10 / 2 ^ 32) % v < v := Nat.mod_lt _ hvpos
  have hq1 : (un64 * 2 ^ 32 + un10 / 2 ^ 32) / v < 2 ^ 32 := by
    rw [Nat.div_lt_iff_lt_mul hvpos]; omega
  have hq0 : ((un64 * 2 ^ 32 + un10 / 2 ^ 32) % v * 2 ^ 32 + un10 % 2 ^ 32) / v < 2 ^ 32 := by
    rw [Nat.div_lt_iff_lt_mul hvpos]; omega
  obtain ⟨e1, e2⟩ := two_digit_division v un64 un10 hvpos
  have hquot : add64 (mul64 ((un64 * 2 ^ 32 + un10 / 2 ^ 32) / v) (2 ^ 32))
      (((un64 * 2 ^ 32 + un10 / 2 ^ 32) % v * 2 ^ 32 + un10 % 2 ^ 32) / v) =
      (un64 * 2 ^ 64 + un10) / v := by
    rw [e1]
    generalize (un64 * 2 ^ 32 + un10 / 2 ^ 32) / v = q1 at hq1 ⊢
    generalize ((un64 * 2 ^ 32 + un10 / 2 ^ 32) % v * 2 ^ 32 + un10 % 2 ^ 32) / v = q0 at hq0 ⊢
    unfold add64 mul64 W64; omega
  unfold udivDigits
  simp only [hb, shr64_eq, mask32, quotientDigit_spec _ v un64 _ hv1 hv2 hun hd1,
    quotientDigit_spec _ v _ _ hv1 hv2 hun21 hd0, bind, Except.bind, checkShift_ok 64 s hs,
    pure, Except.pure, hquot, e2]

/-- The normalisation step shifts divisor and dividend left by the number of
leading zeros of the divisor, without losing a bit. -/
theorem udivNormalize_spec (u1 u0 v : Nat) (hv0 : v ≠ 0) (hv : v < 2 ^ 64) (hu1 : u1 < v)
    (hu0 : u0 < 2 ^ 64) :
    udivNormalize u1 u0 v = .ok
      (leadingZeros v 64, v * 2 ^ leadingZeros v 64,
       (u1 * 2 ^ 64 + u0) * 2 ^ leadingZeros v 64 / 2 ^ 64,
       (u1 * 2 ^ 64 + u0) * 2 ^ leadingZeros v 64 % 2 ^ 64) := by
  obtain ⟨hs, hlo, hhi⟩ := leadingZeros_spec v 64 hv0 hv
  unfold udivNormalize clzll
  rw [if_neg hv0]
  generalize leadingZeros v 64 = s at hs hlo hhi ⊢
  simp only [bind, Except.bind, pure, Except.pure]
  by_cases hs0 : s > 0
  · rw [if_pos hs0]
    have hcast : (8 * 8 : Int) - (s : Int) = ((64 - s : Nat) : Int) := by omega
    rw [checkShift_ok 64 s hs, hcast, checkShift_ok 64 (64 - s) (by omega)]
    simp only [shl64_eq, shr64_eq]
    have hpow : (2 : Nat) ^ 64 = 2 ^ (64 - s) * 2 ^ s := by
      rw [← pow_add]; congr 1; omega
    have hu1s : u1 * 2 ^ s < v * 2 ^ s :=
      Nat.mul_lt_mul_of_pos_right hu1 (Nat.two_pow_pos _)
    have hlo2 : u0 / 2 ^ (64 - s) < 2 ^ s := by
      rw [Nat.div_lt_iff_lt_mul (Nat.two_pow_pos _)]
      rw [Nat.mul_comm, ← hpow]; exact hu0
    have hdiv : u0 * 2 ^ s / 2 ^ 64 = u0 / 2 ^ (64 - s) := by
      rw [hpow]; exact Nat.mul_div_mul_right _ _ (Nat.two_pow_pos _)
    have hor : u1 * 2 ^ s ||| u0 / 2 ^ (64 - s) = u1 * 2 ^ s + u0 / 2 ^ (64 - s) := by
      rw [Nat.mul_comm u1, ← Nat.mul_add_lt_is_or hlo2]
    have hsplit : (u1 * 2 ^ 64 + u0) * 2 ^ s = (u1 * 2 ^ s) * 2 ^ 64 + u0 * 2 ^ s := by ring
    have e1 : v * 2 ^ s % W64 = v * 2 ^ s := Nat.mod_eq_of_lt hhi
    have e2 : u1 * 2 ^ s % W64 = u1 * 2 ^ s := Nat.mod_eq_of_lt (Nat.lt_trans hu1s hhi)
    rw [e1, e2, hor, hsplit, ← hdiv]
    generalize u1 * 2 ^ s = A
    generalize u0 * 2 ^ s = B
    have e3 : (A * 2 ^ 64 + B) / 2 ^ 64 = A + B / 2 ^ 64 := by omega
    have e4 : (A * 2 ^ 64 + B) % 2 ^ 64 = B % W64 := by unfold W64; omega
    rw [e3, e4]
  · rw [if_neg hs0]
    have : s = 0 := by omega
    subst this
    have e3 : (u1 * 2 ^ 64 + u0) * 2 ^ 0 / 2 ^ 64 = u1 := by omega
    have e4 : (u1 * 2 ^ 64 + u0) * 2 ^ 0 % 2 ^ 64 = u0 := by omega
    rw [e3, e4]; simp

/-- Correctness of the portable fallback, with its intermediate values: for a
nonzero divisor and a high dividend word below the divisor, the trace exists,
its quotient and remainder are those of `(u1 * 2^64 + u0)` by `v`, and its
other fields are those of the digit routine on the normalised operands. -/
theorem udiv128by64to64defaultTrace_spec (u1 u0 v : Nat) (hv0 : v ≠ 0) (hv : v < 2 ^ 64)
    (hu1 : u1 < v) (hu0 : u0 < 2 ^ 64) :
    ∃ t, udiv128by64to64defaultTrace u1 u0 v = .ok t ∧
      t.quot = (u1 * 2 ^ 64 + u0) / v ∧ t.r = (u1 * 2 ^ 64 + u0) % v ∧
      udivDigits (leadingZeros v 64) (v * 2 ^ leadingZeros v 64)
        ((u1 * 2 ^ 64 + u0) * 2 ^ leadingZeros v 64 / 2 ^ 64)
        ((u1 * 2 ^ 64 + u0) * 2 ^ leadingZeros v 64 % 2 ^ 64) = .ok t ∧
      leadingZeros v 64 < 64 ∧ 2 ^ 63 ≤ v * 2 ^ leadingZeros v 64 ∧
      v * 2 ^ leadingZeros v 64 < 2 ^ 64 ∧
      (u1 * 2 ^ 64 + u0) * 2 ^ leadingZeros v 64 / 2 ^ 64 < v * 2 ^ leadingZeros v 64 := by
  obtain ⟨hs, hlo, hhi⟩ := leadingZeros_spec v 64 hv0 hv
  have hnorm := udivNormalize_spec u1 u0 v hv0 hv hu1 hu0
  generalize leadingZeros v 64 = s at hs hlo hhi hnorm ⊢
  have hspos : 0 < 2 ^ s := Nat.two_pow_pos s
  have hU : (u1 * 2 ^ 64 + u0) * 2 ^ s < v * 2 ^ s * 2 ^ 64 := by
    have h1 : u1 * 2 ^ 64 + u0 < v * 2 ^ 64 := by omega
    have h2 := Nat.mul_lt_mul_of_pos_right h1 hspos
    have h3 : v * 2 ^ 64 * 2 ^ s = v * 2 ^ s * 2 ^ 64 := by ring
    omega
  have hun : (u1 * 2 ^ 64 + u0) * 2 ^ s / 2 ^ 64 < v * 2 ^ s := by
    rw [Nat.div_lt_iff_lt_mul (by norm_num)]; exact hU
  have hdig := udivDigits_spec s (v * 2 ^ s) ((u1 * 2 ^ 64 + u0) * 2 ^ s / 2 ^ 64)
    ((u1 * 2 ^ 64 + u0) * 2 ^ s % 2 ^ 64) hs (by omega) hhi hun (Nat.mod_lt _ (by norm_num))
  have hUeq : (u1 * 2 ^ 64 + u0) * 2 ^ s / 2 ^ 64 * 2 ^ 64 +
      (u1 * 2 ^ 64 + u0) * 2 ^ s % 2 ^ 64 = (u1 * 2 ^ 64 + u0) * 2 ^ s := by
    have := Nat.div_add_mod ((u1 * 2 ^ 64 + u0) * 2 ^ s) (2 ^ 64)
    omega
  rw [hUeq] at hdig
  refine ⟨_, ?_, ?_, ?_, hdig, hs, by omega, hhi, hun⟩
  · unfold udiv128by64to64defaultTrace
    rw [hnorm]
    simp only [bind, Except.bind]
    exact hdig
  · exact Nat.mul_div_mul_right _ _ hspos
  · show (u1 * 2 ^ 64 + u0) * 2 ^ s % (v * 2 ^ s) / 2 ^ s = _
    rw [Nat.mul_mod_mul_right, Nat.mul_div_cancel _ hspos]

/-- Result of the portable fallback `udiv128by64to64default`. -/
theorem udiv128by64to64default_eq (u1 u0 v : Nat) (hv0 : v ≠ 0) (hv : v < 2 ^ 64)
    (hu1 : u1 < v) (hu0 : u0 < 2 ^ 64) :
    udiv128by64to64default u1 u0 v =
      .ok ((u1 * 2 ^ 64 + u0) / v, (u1 * 2 ^ 64 + u0) % v) := by
  obtain ⟨t, ht, hq, hr, _⟩ := udiv128by64to64defaultTrace_spec u1 u0 v hv0 hv hu1 hu0
  unfold udiv128by64to64default
  rw [ht, ← hq, ← hr]
  rfl

/-! ## The long-division loop -/

theorem sar128_127 (y : Nat) (hy : y < 2 ^ 128) :
    sar128 y 127 = if y < 2 ^ 127 then 0 else 2 ^ 128 - 1 := by
  unfold sar128 ofInt128 toInt128 W128
  rw [Int.shiftRight_eq_div_pow]
  split_ifs with h
  · have : ((y : Int) / ((2 ^ 127 : Nat) : Int)) = 0 := by omega
    rw [this]; rfl
  · have : (((y : Int) - ((2 ^ 128 : Nat) : Int)) / ((2 ^ 127 : Nat) : Int)) = -1 := by omega
    rw [this]; rfl

/-- The branch-free mask is all ones exactly when the divisor does not exceed
the dividend, provided the two differ by less than the sign bit allows. -/
theorem longDivMask_eq (dividend divisor : Nat) (h3 : divisor ≤ dividend + 2 ^ 127)
    (h4 : dividend < divisor + 2 ^ 127) :
    longDivMask dividend divisor = if divisor ≤ dividend then 2 ^ 128 - 1 else 0 := by
  unfold longDivMask
  show sar128 _ 127 = _
  rw [sar128_127]
  · unfold sub128 W128
    split_ifs <;> omega
  · unfold sub128 W128; omega

/-- One iteration of the long-division loop is one step of restoring binary
division. -/
theorem longDivStep_eq (D dv q : Nat) (hD : D < 2 ^ 128) (hdv : dv < 2 ^ 128)
    (h3 : dv ≤ D + 2 ^ 127) (h4 : D < dv + 2 ^ 127) (hq : 2 * q + 1 < 2 ^ 64) :
    longDivStep ⟨D, dv, q⟩ =
      if dv ≤ D then ⟨D - dv, dv / 2, 2 * q + 1⟩ else ⟨D, dv / 2, 2 * q⟩ := by
  have hlow : lowOf q = q := by unfold lowOf W64; omega
  have hhigh : highOf q = 0 := by unfold highOf W64; omega
  have hshl : shl64 q 1 = 2 * q := by rw [shl64_eq]; unfold W64; omega
  have hmk : mkWords (2 * q) 0 = 2 * q := by unfold mkWords; omega
  have hlow2 : lowOf (2 * q) = 2 * q := by unfold lowOf W64; omega
  have hhigh2 : highOf (2 * q) = 0 := by unfold highOf W64; omega
  have hdiv : dv >>> 1 = dv / 2 := by rw [Nat.shiftRight_eq_div_pow, pow_one]
  unfold longDivStep
  simp only [hlow, hhigh, hshl, hmk, hlow2, hhigh2, longDivMask_eq D dv h3 h4, hdiv]
  by_cases hle : dv ≤ D
  · simp only [if_pos hle]
    have hand1 : (2 ^ 128 - 1) &&& 1 = 1 := by decide
    have hor : 2 * q ||| 1 = 2 * q + 1 := by
      have := Nat.mul_add_lt_is_or (i := 1) (b := 1) (by norm_num) q
      simpa using this.symm
    have hlow3 : lowOf (2 * q + 1) = 2 * q + 1 := by unfold lowOf W64; omega
    have hmk2 : mkWords (2 * q + 1) 0 = 2 * q + 1 := by unfold mkWords; omega
    have hand : dv &&& (2 ^ 128 - 1) = dv := by
      rw [Nat.and_pow_two_sub_one_eq_mod]; exact Nat.mod_eq_of_lt hdv
    have hsub : sub128 D dv = D - dv := by unfold sub128 W128; omega
    rw [hand1, hor, hlow3, hmk2, hand, hsub]
  · simp only [if_neg hle]
    have hand1 : (0 : Nat) &&& 1 = 0 := by decide
    have hand : dv &&& 0 = 0 := by simp
    have hsub : sub128 D 0 = D := by unfold sub128 W128; omega
    rw [hand1, Nat.or_zero, hlow2, hmk, hand, hsub]

/-- The long-division loop, started with the divisor `b * 2^k` and a dividend
below twice that, computes quotient and remainder of the dividend by `b` and
appends the quotient bits to `q`. -/
theorem longDivLoop_spec (b : Nat) (hb : 0 < b) :
    ∀ k D q dv, dv = b * 2 ^ k → D < 2 * dv → D < 2 ^ 128 → dv < 2 ^ 128 →
      dv ≤ D + 2 ^ 127 → (q + 1) * 2 ^ (k + 1) ≤ 2 ^ 64 →
      longDivLoop (k + 1) ⟨D, dv, q⟩ = ⟨D % b, b / 2, q * 2 ^ (k + 1) + D / b⟩ := by
  intro k
  induction k with
  | zero =>
    intro D q dv hdv hD2 hD hdv2 h3 hq
    simp only [pow_zero, Nat.mul_one, zero_add, pow_one] at hdv hq ⊢
    subst hdv
    unfold longDivLoop longDivLoop
    rw [longDivStep_eq D dv q hD hdv2 h3 (by omega) (by omega)]
    by_cases hle : dv ≤ D
    · rw [if_pos hle]
      have h1 : D / dv = 1 := Nat.div_eq_of_lt_le (by omega) (by omega)
      have h2 : D % dv = D - dv := by
        rw [Nat.mod_eq_sub_mod hle]; exact Nat.mod_eq_of_lt (by omega)
      rw [h1, h2]; congr 1; omega
    · rw [if_neg hle]
      have h1 : D / dv = 0 := Nat.div_eq_of_lt (by omega)
      have h2 : D % dv = D := Nat.mod_eq_of_lt (by omega)
      rw [h1, h2]; congr 1; omega
  | succ k ih =>
    intro D q dv hdv hD2 hD hdv2 h3 hq
    have hdvk : dv = 2 * (b * 2 ^ k) := by rw [hdv, pow_succ]; ring
    have hq2 : (q + 1) * 2 ^ (k + 1 + 1) = 2 * ((q + 1) * 2 ^ (k + 1)) := by
      rw [pow_succ 2 (k + 1)]; ring
    have hpos : 0 < 2 ^ (k + 1) := Nat.two_pow_pos _
    have hqq : q * 2 ^ (k + 1 + 1) = 2 * (q * 2 ^ (k + 1)) := by
      rw [pow_succ 2 (k + 1)]; ring
    have hq3 : (q + 1) * 2 ^ (k + 1) = q * 2 ^ (k + 1) + 2 ^ (k + 1) := by ring
    have hq1 : 2 * q + 1 < 2 ^ 64 := by
      have : 2 ≤ 2 ^ (k + 1) := by
        calc 2 = 2 ^ 1 := by norm_num
          _ ≤ 2 ^ (k + 1) := Nat.pow_le_pow_right (by norm_num) (by omega)
      nlinarith
    unfold longDivLoop
    rw [longDivStep_eq D dv q hD hdv2 h3 (by omega) hq1]
    by_cases hle : dv ≤ D
    · rw [if_pos hle]
      have hhalf : dv / 2 = b * 2 ^ k := by omega
      rw [ih (D - dv) (2 * q + 1) (dv / 2) hhalf (by omega) (by omega) (by omega) (by omega)
        (by
          have : (2 * q + 1 + 1) * 2 ^ (k + 1) = 2 * ((q + 1) * 2 ^ (k + 1)) := by ring
          omega)]
      have hDsplit : D = (D - dv) + b * 2 ^ (k + 1) := by
        rw [pow_succ]; rw [hdvk] at hle ⊢
        have : b * (2 ^ k * 2) = 2 * (b * 2 ^ k) := by ring
        omega
      have hmod : D % b = (D - dv) % b := by
        conv_lhs => rw [hDsplit]
        exact Nat.add_mul_mod_self_left _ _ _
      have hdivv : D / b = (D - dv) / b + 2 ^ (k + 1) := by
        conv_lhs => rw [hDsplit]
        exact Nat.add_mul_div_left _ _ hb
      rw [hmod, hdivv]
      congr 1
      have : (2 * q + 1) * 2 ^ (k + 1) = 2 * (q * 2 ^ (k + 1)) + 2 ^ (k + 1) := by ring
      omega
    · rw [if_neg hle]
      have hhalf : dv / 2 = b * 2 ^ k := by omega
      rw [ih D (2 * q) (dv / 2) hhalf (by omega) hD (by omega) (by omega)
        (by
          have : (2 * q + 1) * 2 ^ (k + 1) = 2 * (q * 2 ^ (k + 1)) + 2 ^ (k + 1) := by ring
          omega)]
      congr 1
      have : 2 * q * 2 ^ (k + 1) = 2 * (q * 2 ^ (k + 1)) := by ring
      omega

/-- Position of the highest set bit, read off the count of leading zeros. -/
theorem leadingZeros_bounds (x : Nat) (h0 : x ≠ 0) (h : x < 2 ^ 64) :
    leadingZeros x 64 < 64 ∧ 2 ^ (63 - leadingZeros x 64) ≤ x ∧
      x < 2 ^ (64 - leadingZeros x 64) := by
  obtain ⟨hs, hlo, hhi⟩ := leadingZeros_spec x 64 h0 h
  generalize leadingZeros x 64 = s at hs hlo hhi ⊢
  have hpos : 0 < 2 ^ s := Nat.two_pow_pos s
  have e1 : (2 : Nat) ^ 64 = 2 ^ (64 - s) * 2 ^ s := by
    rw [← pow_add]; congr 1; omega
  have e2 : (2 : Nat) ^ 63 = 2 ^ (63 - s) * 2 ^ s := by
    rw [← pow_add]; congr 1; omega
  refine ⟨hs, ?_, ?_⟩
  · apply Nat.le_of_mul_le_mul_right _ hpos
    rw [← e2]; omega
  · apply Nat.lt_of_mul_lt_mul_right (a := 2 ^ s)
    rw [← e1]; exact hhi

/-- The binary long-division branch of `__udivmodti4` returns quotient and
remainder. -/
theorem udivmodWide_spec (a b : Nat) (rem : Bool) (ha : a < 2 ^ 128) (hb : b < 2 ^ 128)
    (hh : highOf b ≠ 0) (hle : b ≤ a) :
    udivmodWide a b rem = .ok (a / b, storeRem rem (a % b)) := by
  have hbh : highOf b = b / 2 ^ 64 := by unfold highOf W64; omega
  have hah : highOf a = a / 2 ^ 64 := by unfold highOf W64; omega
  rw [hbh] at hh
  have hbh2 : b / 2 ^ 64 < 2 ^ 64 := by omega
  have hah2 : a / 2 ^ 64 < 2 ^ 64 := by omega
  have hah0 : a / 2 ^ 64 ≠ 0 := by omega
  obtain ⟨hc1, hb1, hb2⟩ := leadingZeros_bounds (b / 2 ^ 64) hh hbh2
  obtain ⟨hc2, ha1, ha2⟩ := leadingZeros_bounds (a / 2 ^ 64) hah0 hah2
  unfold udivmodWide clzll
  rw [hbh, hah, if_neg hh, if_neg hah0]
  generalize leadingZeros (b / 2 ^ 64) 64 = c1 at hc1 hb1 hb2 ⊢
  generalize leadingZeros (a / 2 ^ 64) 64 = c2 at hc2 ha1 ha2 ⊢
  have hc : c2 ≤ c1 := by
    by_contra hcon
    have : (2 : Nat) ^ (64 - c2) ≤ 2 ^ (63 - c1) :=
      Nat.pow_le_pow_right (by norm_num) (by omega)
    omega
  have hX2 : (2 : Nat) ^ (64 - c2) * 2 ^ 64 = 2 * (2 ^ (63 - c2) * 2 ^ 64) := by
    have : 64 - c2 = (63 - c2) + 1 := by omega
    rw [this, pow_succ]; ring
  have hXle : 2 * (2 ^ (63 - c2) * 2 ^ 64) ≤ 2 ^ 128 := by
    rw [← hX2, ← pow_add]
    exact Nat.pow_le_pow_right (by norm_num) (by omega)
  have hbX1 : 2 ^ (63 - c1) * 2 ^ 64 * 2 ^ (c1 - c2) = 2 ^ (63 - c2) * 2 ^ 64 := by
    rw [← pow_add, ← pow_add, ← pow_add]; congr 1; omega
  have hbX2 : 2 ^ (64 - c1) * 2 ^ 64 * 2 ^ (c1 - c2) = 2 * (2 ^ (63 - c2) * 2 ^ 64) := by
    rw [← hX2, ← pow_add, ← pow_add, ← pow_add]; congr 1; omega
  have hpos : 0 < 2 ^ (c1 - c2) := Nat.two_pow_pos _
  have hdv1 : 2 ^ (63 - c2) * 2 ^ 64 ≤ b * 2 ^ (c1 - c2) := by
    rw [← hbX1]
    apply Nat.mul_le_mul_right
    have : 2 ^ (63 - c1) * 2 ^ 64 ≤ b / 2 ^ 64 * 2 ^ 64 := Nat.mul_le_mul_right _ hb1
    omega
  have hdv2 : b * 2 ^ (c1 - c2) < 2 * (2 ^ (63 - c2) * 2 ^ 64) := by
    rw [← hbX2]
    apply Nat.mul_lt_mul_of_pos_right _ hpos
    have : (b / 2 ^ 64 + 1) * 2 ^ 64 ≤ 2 ^ (64 - c1) * 2 ^ 64 := Nat.mul_le_mul_right _ hb2
    omega
  have haX1 : 2 ^ (63 - c2) * 2 ^ 64 ≤ a := by
    have : 2 ^ (63 - c2) * 2 ^ 64 ≤ a / 2 ^ 64 * 2 ^ 64 := Nat.mul_le_mul_right _ ha1
    omega
  have haX2 : a < 2 * (2 ^ (63 - c2) * 2 ^ 64) := by
    rw [← hX2]
    have : (a / 2 ^ 64 + 1) * 2 ^ 64 ≤ 2 ^ (64 - c2) * 2 ^ 64 := Nat.mul_le_mul_right _ ha2
    omega
  have hshift : (c1 : Int) - (c2 : Int) = ((c1 - c2 : Nat) : Int) := by omega
  have hiter : (((c1 - c2 : Nat) : Int) + 1).toNat = (c1 - c2) + 1 := by omega
  have hshl : b <<< (c1 - c2) % W128 = b * 2 ^ (c1 - c2) := by
    rw [Nat.shiftLeft_eq]; apply Nat.mod_eq_of_lt; unfold W128; omega
  have hq0 : mkWords 0 0 = 0 := by decide
  have hfuel : (0 + 1) * 2 ^ (c1 - c2 + 1) ≤ 2 ^ 64 := by
    rw [Nat.zero_add, Nat.one_mul]
    exact Nat.pow_le_pow_right (by norm_num) (by omega)
  have hloop := longDivLoop_spec b (by omega) (c1 - c2) a 0 (b * 2 ^ (c1 - c2)) rfl
    (by omega) ha (by omega) (by omega) hfuel
  simp only [bind, Except.bind, hshift, checkShift_ok 128 (c1 - c2) (by omega), hiter, hshl,
    hq0, hloop, pure, Except.pure, Nat.zero_mul, Nat.zero_add]

/-! ## `udiv128by64to64` and `__udivmodti4` -/

/-- Under its precondition the 128-by-64 divider returns quotient and
remainder, whichever implementation the preprocessor selects. -/
theorem udiv128by64to64_eq (x86_64 : Bool) (u1 u0 v : Nat) (hv0 : v ≠ 0) (hv : v < 2 ^ 64)
    (hu1 : u1 < v) (hu0 : u0 < 2 ^ 64) :
    udiv128by64to64 x86_64 u1 u0 v =
      .ok ((u1 * 2 ^ 64 + u0) / v, (u1 * 2 ^ 64 + u0) % v) := by
  unfold udiv128by64to64
  cases x86_64 with
  | false => simpa using udiv128by64to64default_eq u1 u0 v hv0 hv hu1 hu0
  | true =>
    have hq : (u1 * 2 ^ 64 + u0) / v < 2 ^ 64 := by
      rw [Nat.div_lt_iff_lt_mul (by omega)]
      have : (u1 + 1) * 2 ^ 64 ≤ v * 2 ^ 64 := Nat.mul_le_mul_right _ hu1
      omega
    unfold divq W64
    rw [if_pos rfl, if_neg (by omega)]

/-- The branch of `__udivmodti4` for a divisor that fits in 64 bits returns
quotient and remainder. -/
theorem udivmodNarrow_spec (x86_64 : Bool) (a b : Nat) (rem : Bool) (ha : a < 2 ^ 128)
    (hb0 : b ≠ 0) (hb : b < 2 ^ 64) :
    udivmodNarrow x86_64 a b rem = .ok (a / b, storeRem rem (a % b)) := by
  have hlb : lowOf b = b := by unfold lowOf W64; omega
  have hah : highOf a = a / 2 ^ 64 := by unfold highOf W64; omega
  have hal : lowOf a = a % 2 ^ 64 := rfl
  have hbpos : 0 < b := by omega
  unfold udivmodNarrow
  simp only [hlb, hah, hal]
  by_cases hlt : a / 2 ^ 64 < b
  · rw [if_pos hlt]
    have hsplit : a / 2 ^ 64 * 2 ^ 64 + a % 2 ^ 64 = a := by omega
    rw [udiv128by64to64_eq x86_64 _ _ b hb0 hb hlt (by omega), hsplit]
    have hq : a / b < 2 ^ 64 := by
      rw [Nat.div_lt_iff_lt_mul hbpos]
      have : (a / 2 ^ 64 + 1) * 2 ^ 64 ≤ b * 2 ^ 64 := Nat.mul_le_mul_right _ hlt
      omega
    simp only [bind, Except.bind, pure, Except.pure, mkWords, Nat.zero_mul, Nat.zero_add]
  · rw [if_neg hlt]
    have hr : a / 2 ^ 64 % b < b := Nat.mod_lt _ hbpos
    have hmk : mkWords (a % 2 ^ 64) (a / 2 ^ 64 % b) = a / 2 ^ 64 % b * 2 ^ 64 + a % 2 ^ 64 := rfl
    have hhi : highOf (a / 2 ^ 64 % b * 2 ^ 64 + a % 2 ^ 64) = a / 2 ^ 64 % b := by
      unfold highOf W64; omega
    have hlo : lowOf (a / 2 ^ 64 % b * 2 ^ 64 + a % 2 ^ 64) = a % 2 ^ 64 := by
      unfold lowOf W64; omega
    have hsplit : a = (a / 2 ^ 64 % b * 2 ^ 64 + a % 2 ^ 64) + b * (a / 2 ^ 64 / b * 2 ^ 64) := by
      have h1 := Nat.div_add_mod (a / 2 ^ 64) b
      have h2 : b * (a / 2 ^ 64 / b * 2 ^ 64) = (b * (a / 2 ^ 64 / b)) * 2 ^ 64 := by ring
      omega
    have hdiv : a / b = (a / 2 ^ 64 % b * 2 ^ 64 + a % 2 ^ 64) / b + a / 2 ^ 64 / b * 2 ^ 64 := by
      conv_lhs => rw [hsplit]
      exact Nat.add_mul_div_left _ _ hbpos
    have hmod : a % b = (a / 2 ^ 64 % b * 2 ^ 64 + a % 2 ^ 64) % b := by
      conv_lhs => rw [hsplit]
      exact Nat.add_mul_mod_self_left _ _ _
    unfold checkedDiv
    rw [if_neg hb0]
    simp only [bind, Except.bind, hmk, hhi, hlo,
      udiv128by64to64_eq x86_64 _ _ b hb0 hb hr (Nat.mod_lt _ (by norm_num)), pure, Except.pure]
    rw [hdiv, hmod]
    simp only [mkWords, Nat.zero_mul, Nat.zero_add]
    rw [Nat.add_comm]

/-- Correctness of `__udivmodti4`: for 128-bit operands and a nonzero divisor
it returns the quotient and stores the remainder when asked to. -/
theorem udivmodti4_eq (x86_64 : Bool) (a b : Nat) (rem : Bool) (ha : a < 2 ^ 128)
    (hb0 : b ≠ 0) (hb : b < 2 ^ 128) :
    __udivmodti4 x86_64 a b rem = .ok (a / b, storeRem rem (a % b)) := by
  unfold __udivmodti4
  simp only []
  by_cases hgt : b > a
  · rw [if_pos hgt, Nat.div_eq_of_lt hgt, Nat.mod_eq_of_lt hgt]
  · rw [if_neg hgt]
    by_cases hh : highOf b = 0
    · rw [if_pos hh]
      have : b < 2 ^ 64 := by unfold highOf W64 at hh; omega
      exact udivmodNarrow_spec x86_64 a b rem ha hb0 this
    · rw [if_neg hh]
      exact udivmodWide_spec a b rem ha hb hh (by omega)

theorem udivti3_eq (x86_64 : Bool) (a b : Nat) (ha : a < 2 ^ 128) (hb0 : b ≠ 0)
    (hb : b < 2 ^ 128) : __udivti3 x86_64 a b = .ok (a / b) := by
  unfold __udivti3
  rw [udivmodti4_eq x86_64 a b false ha hb0 hb]
  rfl

theorem COMPUTE_UDIV_eq (x86_64 : Bool) (a b : Nat) (ha : a < 2 ^ 128) (hb0 : b ≠ 0)
    (hb : b < 2 ^ 128) : COMPUTE_UDIV x86_64 a b = .ok (a / b) := by
  unfold COMPUTE_UDIV
  rw [udivmodti4_eq x86_64 a b false ha hb0 hb]
  rfl

/-! ## Multiplication -/

/-- `__mulddi3` returns the exact product of two 64-bit values. -/
theorem mulddi3_eq (a b : Nat) (ha : a < 2 ^ 64) (hb : b < 2 ^ 64) :
    __mulddi3 a b = a * b := by
  have hmask : shr64 (W64 - 1) (8 * 8 / 2) = 2 ^ 32 - 1 := by decide
  have h32 : 8 * 8 / 2 = 32 := rfl
  have hah : a / 2 ^ 32 < 2 ^ 32 := by omega
  have hbh : b / 2 ^ 32 < 2 ^ 32 := by omega
  have p0 : a % 2 ^ 32 * (b % 2 ^ 32) ≤ (2 ^ 32 - 1) * (2 ^ 32 - 1) :=
    Nat.mul_le_mul (by omega) (by omega)
  have p1 : a / 2 ^ 32 * (b % 2 ^ 32) ≤ (2 ^ 32 - 1) * (2 ^ 32 - 1) :=
    Nat.mul_le_mul (by omega) (by omega)
  have p2 : b / 2 ^ 32 * (a % 2 ^ 32) ≤ (2 ^ 32 - 1) * (2 ^ 32 - 1) :=
    Nat.mul_le_mul (by omega) (by omega)
  have p3 : a / 2 ^ 32 * (b / 2 ^ 32) ≤ (2 ^ 32 - 1) * (2 ^ 32 - 1) :=
    Nat.mul_le_mul (by omega) (by omega)
  have hprod : a * b = a / 2 ^ 32 * (b / 2 ^ 32) * 2 ^ 64 +
      (a / 2 ^ 32 * (b % 2 ^ 32) + b / 2 ^ 32 * (a % 2 ^ 32)) * 2 ^ 32 +
      a % 2 ^ 32 * (b % 2 ^ 32) := by
    have e1 : a = a / 2 ^ 32 * 2 ^ 32 + a % 2 ^ 32 := by omega
    have e2 : b = b / 2 ^ 32 * 2 ^ 32 + b % 2 ^ 32 := by omega
    conv_lhs => rw [e1, e2]
    ring
  unfold __mulddi3
  simp only [hmask, Nat.and_pow_two_sub_one_eq_mod, shr64_eq, shl64_eq, h32]
  rw [hprod]
  unfold mul64
  generalize a % 2 ^ 32 * (b % 2 ^ 32) = P0 at p0 ⊢
  generalize a / 2 ^ 32 * (b % 2 ^ 32) = P1 at p1 ⊢
  generalize b / 2 ^ 32 * (a % 2 ^ 32) = P2 at p2 ⊢
  generalize a / 2 ^ 32 * (b / 2 ^ 32) = P3 at p3 ⊢
  clear hprod hah hbh ha hb hmask h32
  unfold mkWords add64 W64
  omega
/-- `__multi3` returns the product reduced modulo `2^128`. -/
theorem multi3_eq (a b : Nat) (ha : a < 2 ^ 128) (hb : b < 2 ^ 128) :
    __multi3 a b = a * b % 2 ^ 128 := by
  have hal : lowOf a = a % 2 ^ 64 := rfl
  have hbl : lowOf b = b % 2 ^ 64 := rfl
  have hah : highOf a = a / 2 ^ 64 := by unfold highOf W64; omega
  have hbh : highOf b = b / 2 ^ 64 := by unfold highOf W64; omega
  have hprod : a * b = a / 2 ^ 64 * (b / 2 ^ 64) * 2 ^ 128 +
      (a / 2 ^ 64 * (b % 2 ^ 64) + a % 2 ^ 64 * (b / 2 ^ 64)) * 2 ^ 64 +
      a % 2 ^ 64 * (b % 2 ^ 64) := by
    have e1 : a = a / 2 ^ 64 * 2 ^ 64 + a % 2 ^ 64 := by omega
    have e2 : b = b / 2 ^ 64 * 2 ^ 64 + b % 2 ^ 64 := by omega
    conv_lhs => rw [e1, e2]
    ring
  have p0 : a % 2 ^ 64 * (b % 2 ^ 64) < 2 ^ 64 * 2 ^ 64 :=
    Nat.mul_lt_mul'' (Nat.mod_lt _ (by norm_num)) (Nat.mod_lt _ (by norm_num))
  unfold __multi3
  simp only [hal, hbl, hah, hbh]
  rw [mulddi3_eq _ _ (Nat.mod_lt _ (by norm_num)) (Nat.mod_lt _ (by norm_num)), hprod]
  unfold mul64
  generalize a % 2 ^ 64 * (b % 2 ^ 64) = P0 at p0 ⊢
  generalize a / 2 ^ 64 * (b % 2 ^ 64) = P1
  generalize a % 2 ^ 64 * (b / 2 ^ 64) = P2
  generalize a / 2 ^ 64 * (b / 2 ^ 64) = P3
  clear hprod hal hbl hah hbh ha hb
  unfold mkWords lowOf highOf add64 W64
  omega

/-! ## Signed division -/

theorem xor_allOnes (x : Nat) (hx : x < 2 ^ 128) : x ^^^ (2 ^ 128 - 1) = 2 ^ 128 - 1 - x := by
  apply Nat.eq_of_testBit_eq
  intro i
  have h1 : 2 ^ 128 - 1 - x = 2 ^ 128 - (x + 1) := by omega
  rw [h1, Nat.testBit_xor, Nat.testBit_two_pow_sub_one, Nat.testBit_two_pow_sub_succ hx]
  by_cases hi : i < 128
  · simp [hi]
  · have hxi : x.testBit i = false := by
      apply Nat.testBit_lt_two_pow
      calc x < 2 ^ 128 := hx
        _ ≤ 2 ^ i := Nat.pow_le_pow_right (by norm_num) (by omega)
    simp [hi, hxi]

/-- Magnitude of the value of a 128-bit pattern, as computed by
`(x ^ s) + (-s)` with `s = x >> 127`. -/
theorem abs_via_mask (x : Nat) (hx : x < 2 ^ 128) :
    add128 (x ^^^ sar128 x 127) (neg128 (sar128 x 127)) = (toInt128 x).natAbs := by
  rw [sar128_127 x hx]
  unfold toInt128
  by_cases h : x < 2 ^ 127
  · rw [if_pos h, if_pos h]
    have : neg128 0 = 0 := by decide
    rw [this, Nat.xor_zero]
    unfold add128 W128
    omega
  · rw [if_neg h, if_neg h, xor_allOnes x hx]
    have : neg128 (2 ^ 128 - 1) = 1 := by decide
    rw [this]
    unfold add128 W128
    omega

/-- Conditional negation `(q ^ s) + (-s)` of a magnitude `q` by a mask `s`. -/
theorem negate_via_mask (q : Nat) (hq : q ≤ 2 ^ 127) (neg : Bool) :
    toInt128 (add128 (q ^^^ (if neg then 2 ^ 128 - 1 else 0))
        (neg128 (if neg then 2 ^ 128 - 1 else 0))) =
      if neg then -(q : Int) else if q = 2 ^ 127 then -(2 ^ 127 : Int) else (q : Int) := by
  cases neg with
  | false =>
    have : neg128 0 = 0 := by decide
    simp only [Bool.false_eq_true, if_false, this, Nat.xor_zero]
    unfold toInt128 add128 W128
    split_ifs <;> omega
  | true =>
    have : neg128 (2 ^ 128 - 1) = 1 := by decide
    simp only [if_true, this]
    rw [xor_allOnes q (by omega)]
    unfold toInt128 add128 W128
    split_ifs <;> omega

/-- Sign and magnitude of the value of a 128-bit pattern. -/
theorem toInt128_cases (x : Nat) (hx : x < 2 ^ 128) :
    (x < 2 ^ 127 ∧ sar128 x 127 = 0 ∧ toInt128 x = ((toInt128 x).natAbs : Int) ∧
        (toInt128 x).natAbs = x) ∨
      (2 ^ 127 ≤ x ∧ sar128 x 127 = 2 ^ 128 - 1 ∧ toInt128 x = -((toInt128 x).natAbs : Int) ∧
        (toInt128 x).natAbs = 2 ^ 128 - x) := by
  rw [sar128_127 x hx]
  unfold toInt128 W128
  by_cases h : x < 2 ^ 127
  · left
    rw [if_pos h, if_pos h]
    refine ⟨h, rfl, by omega, by omega⟩
  · right
    rw [if_neg h, if_neg h]
    refine ⟨by omega, rfl, by omega, by omega⟩

/-- `__divXi3` on bit patterns: outside division by zero and the overflow case
the result is the pattern of the quotient truncated toward zero. -/
theorem divXi3_spec (x86_64 : Bool) (a b : Nat) (ha : a < 2 ^ 128) (hb : b < 2 ^ 128)
    (hb0 : b ≠ 0) (hov : ¬(a = 2 ^ 127 ∧ b = 2 ^ 128 - 1)) :
    ∃ r, __divXi3 x86_64 a b = .ok r ∧ r < 2 ^ 128 ∧
      toInt128 r = (toInt128 a).tdiv (toInt128 b) := by
  have hN : 16 * 8 - 1 = 127 := rfl
  have hau := abs_via_mask a ha
  have hbu := abs_via_mask b hb
  unfold __divXi3
  simp only [hN, hau, hbu]
  have hx0 : (0 : Nat) ^^^ 0 = if false then 2 ^ 128 - 1 else 0 := by decide
  have hx1 : (2 ^ 128 - 1 : Nat) ^^^ 0 = if true then 2 ^ 128 - 1 else 0 := by decide
  have hx2 : (0 : Nat) ^^^ (2 ^ 128 - 1) = if true then 2 ^ 128 - 1 else 0 := by decide
  have hx3 : (2 ^ 128 - 1 : Nat) ^^^ (2 ^ 128 - 1) = if false then 2 ^ 128 - 1 else 0 := by
    decide
  have hr : ∀ x y, add128 x y < 2 ^ 128 := by
    intro x y; unfold add128 W128; omega
  rcases toInt128_cases a ha with ⟨ha1, hsa, hA, hAn⟩ | ⟨ha1, hsa, hA, hAn⟩ <;>
  rcases toInt128_cases b hb with ⟨hb1, hsb, hB, hBn⟩ | ⟨hb1, hsb, hB, hBn⟩
  · have hq : (toInt128 a).natAbs / (toInt128 b).natAbs < 2 ^ 127 := by
      rw [Nat.div_lt_iff_lt_mul (by omega)]
      have : 1 ≤ (toInt128 b).natAbs := by omega
      nlinarith
    rw [COMPUTE_UDIV_eq x86_64 _ _ (by omega) (by omega) (by omega), hsa, hsb, hx0]
    refine ⟨_, rfl, hr _ _, ?_⟩
    rw [negate_via_mask _ (by omega) false, hA, hB, ← Int.ofNat_tdiv]
    simp only [Int.natAbs_ofNat, Bool.false_eq_true, if_false]
    rw [if_neg (by omega)]
  · have hq : (toInt128 a).natAbs / (toInt128 b).natAbs < 2 ^ 127 := by
      rw [Nat.div_lt_iff_lt_mul (by omega)]
      have : 1 ≤ (toInt128 b).natAbs := by omega
      nlinarith
    rw [COMPUTE_UDIV_eq x86_64 _ _ (by omega) (by omega) (by omega), hsa, hsb, hx2]
    refine ⟨_, rfl, hr _ _, ?_⟩
    rw [negate_via_mask _ (by omega) true, hA, hB, Int.tdiv_neg, ← Int.ofNat_tdiv]
    simp only [Int.natAbs_ofNat, Int.natAbs_neg, if_true]
  · have hq : (toInt128 a).natAbs / (toInt128 b).natAbs ≤ 2 ^ 127 := by
      have := Nat.div_le_self (toInt128 a).natAbs (toInt128 b).natAbs
      omega
    rw [COMPUTE_UDIV_eq x86_64 _ _ (by omega) (by omega) (by omega), hsa, hsb, hx1]
    refine ⟨_, rfl, hr _ _, ?_⟩
    rw [negate_via_mask _ hq true, hA, hB, Int.neg_tdiv, ← Int.ofNat_tdiv]
    simp only [Int.natAbs_ofNat, Int.natAbs_neg, if_true]
  · have hq : (toInt128 a).natAbs / (toInt128 b).natAbs < 2 ^ 127 := by
      rw [Nat.div_lt_iff_lt_mul (by omega)]
      by_cases h1 : (toInt128 b).natAbs = 1
      · have : a ≠ 2 ^ 127 := by
          intro h; apply hov; exact ⟨h, by omega⟩
        omega
      · have : 2 ≤ (toInt128 b).natAbs := by omega
        omega
    rw [COMPUTE_UDIV_eq x86_64 _ _ (by omega) (by omega) (by omega), hsa, hsb, hx3]
    refine ⟨_, rfl, hr _ _, ?_⟩
    rw [negate_via_mask _ (by omega) false, hA, hB, Int.neg_tdiv, Int.tdiv_neg,
      ← Int.ofNat_tdiv]
    simp only [Int.natAbs_ofNat, Int.natAbs_neg, Bool.false_eq_true, if_false, neg_neg]
    rw [if_neg (by omega)]

theorem ofInt128_lt (A : Int) : ofInt128 A < 2 ^ 128 := by
  unfold ofInt128 W128; omega

theorem toInt128_ofInt128 (A : Int) (h1 : -2 ^ 127 ≤ A) (h2 : A < 2 ^ 127) :
    toInt128 (ofInt128 A) = A := by
  unfold toInt128 ofInt128 W128
  split_ifs <;> omega

theorem ofInt128_eq_zero (A : Int) (h1 : -2 ^ 127 ≤ A) (h2 : A < 2 ^ 127) :
    ofInt128 A = 0 ↔ A = 0 := by
  unfold ofInt128 W128; omega

theorem ofInt128_min (A : Int) (h1 : -2 ^ 127 ≤ A) (h2 : A < 2 ^ 127) :
    ofInt128 A = 2 ^ 127 ↔ A = -2 ^ 127 := by
  unfold ofInt128 W128; omega

theorem ofInt128_minus_one (A : Int) (h1 : -2 ^ 127 ≤ A) (h2 : A < 2 ^ 127) :
    ofInt128 A = 2 ^ 128 - 1 ↔ A = -1 := by
  unfold ofInt128 W128; omega

/-- The truncated quotient is negative exactly when the operand signs differ and
the quotient of the magnitudes is not zero. -/
theorem tdiv_neg_iff (A B : Int) :
    A.tdiv B < 0 ↔
      ((A < 0 ∧ 0 < B) ∨ (0 < A ∧ B < 0)) ∧ A.natAbs / B.natAbs ≠ 0 := by
  obtain ⟨n, rfl | rfl⟩ := Int.eq_nat_or_neg A <;>
  obtain ⟨m, rfl | rfl⟩ := Int.eq_nat_or_neg B <;>
  simp only [Int.neg_tdiv, Int.tdiv_neg, ← Int.ofNat_tdiv, Int.natAbs_neg, Int.natAbs_ofNat,
    neg_neg] <;>
  · have hz : n = 0 → n / m = 0 := by intro h; rw [h]; exact Nat.zero_div m
    have hz2 : m = 0 → n / m = 0 := by intro h; rw [h]; exact Nat.div_zero n
    generalize n / m = q at hz hz2 ⊢
    omega

/-- A division by zero in `__udivmodti4` happens at `dividend.s.high / divisor.s.low`. -/
theorem udivmodti4_zero (x86_64 : Bool) (a : Nat) (rem : Bool) :
    __udivmodti4 x86_64 a 0 rem = .error (.divByZero .highByLow) := by
  have h1 : highOf 0 = 0 := by decide
  have h2 : lowOf 0 = 0 := by decide
  unfold __udivmodti4
  simp only []
  rw [if_neg (by omega), if_pos h1]
  unfold udivmodNarrow
  simp only [h2]
  rw [if_neg (by omega)]
  unfold checkedDiv
  rw [if_pos rfl]
  rfl

/-! ## The claims of the specification -/

/-- C1: for every 128-bit dividend `a` and nonzero 128-bit divisor `b`,
`__udivmodti4(a, b, &rem)`, with the 128-by-64 step done by the portable
fallback, returns `q` and stores `r` with `a = q * b + r` over the natural
numbers and `r < b`; `q` is `a / b` and `r` is `a % b`. -/
theorem udivmodti4_division (a b : Nat) (ha : a < 2 ^ 128) (hb0 : b ≠ 0) (hb : b < 2 ^ 128) :
    ∃ q r, __udivmodti4 false a b true = .ok (q, some r) ∧
      a = q * b + r ∧ r < b ∧ q = a / b ∧ r = a % b := by
  refine ⟨a / b, a % b, udivmodti4_eq false a b true ha hb0 hb, ?_, Nat.mod_lt _ (by omega),
    rfl, rfl⟩
  have := Nat.div_add_mod a b
  rw [Nat.mul_comm] at this
  exact this.symm

/-- C1, at the inputs of the specification: `(100, 7)` gives `(14, 2)` and
`(0, 5)` gives `(0, 0)`. -/
theorem udivmodti4_division_witness :
    ((100 < 2 ^ 128 ∧ 7 ≠ 0 ∧ 7 < 2 ^ 128) ∧
      ∃ q r, __udivmodti4 false 100 7 true = .ok (q, some r) ∧
        100 = q * 7 + r ∧ r < 7 ∧ q = 100 / 7 ∧ r = 100 % 7) ∧
    __udivmodti4 false 100 7 true = .ok (14, some 2) ∧
    __udivmodti4 false 0 5 true = .ok (0, some 0) :=
  ⟨⟨⟨by decide, by decide, by decide⟩,
    udivmodti4_division 100 7 (by decide) (by decide) (by decide)⟩, by decide, by decide⟩

/-- C2: for 128-bit operands, `__multi3(a, b)` is the low 128 bits of the exact
product, `(a * b) mod 2^128` on the bit patterns. -/
theorem multi3_low_bits (a b : Nat) (ha : a < 2 ^ 128) (hb : b < 2 ^ 128) :
    __multi3 a b = a * b % 2 ^ 128 :=
  multi3_eq a b ha hb

/-- C2, at the inputs of the specification: `2^127 * 2` wraps to `0`, and
`(2^64 - 1)^2` is `2^128 - 2^65 + 1`. -/
theorem multi3_low_bits_witness :
    ((2 ^ 127 < 2 ^ 128 ∧ 2 < 2 ^ 128) ∧ __multi3 (2 ^ 127) 2 = 2 ^ 127 * 2 % 2 ^ 128) ∧
    __multi3 (2 ^ 127) 2 = 0 ∧
    __multi3 (2 ^ 64 - 1) (2 ^ 64 - 1) = (2 ^ 64 - 1) * (2 ^ 64 - 1) ∧
    __multi3 (2 ^ 64 - 1) (2 ^ 64 - 1) = 2 ^ 128 - 2 ^ 65 + 1 :=
  ⟨⟨⟨by decide, by decide⟩, multi3_low_bits (2 ^ 127) 2 (by decide) (by decide)⟩,
    by decide, by decide, by decide⟩

/-- C3: for signed 128-bit `A` and `B` with `B ≠ 0` and `(A, B) ≠ (-2^127, -1)`,
`__divti3(A, B)` is the quotient truncated toward zero: its magnitude is
`|A| / |B|` and it is negative exactly when the signs of the operands differ
and that magnitude is not zero. -/
theorem divti3_truncates (x86_64 : Bool) (A B : Int) (hA1 : -2 ^ 127 ≤ A) (hA2 : A < 2 ^ 127)
    (hB1 : -2 ^ 127 ≤ B) (hB2 : B < 2 ^ 127) (hB0 : B ≠ 0)
    (hov : ¬(A = -2 ^ 127 ∧ B = -1)) :
    ∃ r, __divti3 x86_64 (ofInt128 A) (ofInt128 B) = .ok r ∧ r < 2 ^ 128 ∧
      toInt128 r = A.tdiv B ∧
      (toInt128 r).natAbs = A.natAbs / B.natAbs ∧
      (toInt128 r < 0 ↔
        ((A < 0 ∧ 0 < B) ∨ (0 < A ∧ B < 0)) ∧ A.natAbs / B.natAbs ≠ 0) := by
  have hb0 : ofInt128 B ≠ 0 := by
    rw [Ne, ofInt128_eq_zero B hB1 hB2]; exact hB0
  have hov2 : ¬(ofInt128 A = 2 ^ 127 ∧ ofInt128 B = 2 ^ 128 - 1) := by
    rw [ofInt128_min A hA1 hA2, ofInt128_minus_one B hB1 hB2]; exact hov
  obtain ⟨r, hr, hlt, hval⟩ :=
    divXi3_spec x86_64 (ofInt128 A) (ofInt128 B) (ofInt128_lt A) (ofInt128_lt B) hb0 hov2
  rw [toInt128_ofInt128 A hA1 hA2, toInt128_ofInt128 B hB1 hB2] at hval
  refine ⟨r, hr, hlt, hval, ?_, ?_⟩
  · rw [hval]; exact Int.natAbs_tdiv A B
  · rw [hval]; exact tdiv_neg_iff A B

/-- C3, at the inputs of the specification: `(-7, 2)` and `(7, -2)` give `-3`,
`(-7, -2)` gives `3`. -/
theorem divti3_truncates_witness :
    ((-2 ^ 127 ≤ (-7 : Int) ∧ (-7 : Int) < 2 ^ 127 ∧ -2 ^ 127 ≤ (2 : Int) ∧
        (2 : Int) < 2 ^ 127 ∧ (2 : Int) ≠ 0 ∧ ¬((-7 : Int) = -2 ^ 127 ∧ (2 : Int) = -1)) ∧
      ∃ r, __divti3 false (ofInt128 (-7)) (ofInt128 2) = .ok r ∧ r < 2 ^ 128 ∧
        toInt128 r = (-7 : Int).tdiv 2 ∧
        (toInt128 r).natAbs = (-7 : Int).natAbs / (2 : Int).natAbs ∧
        (toInt128 r < 0 ↔
          (((-7 : Int) < 0 ∧ (0 : Int) < 2) ∨ ((0 : Int) < -7 ∧ (2 : Int) < 0)) ∧
            (-7 : Int).natAbs / (2 : Int).natAbs ≠ 0)) ∧
    (__divti3 false (ofInt128 (-7)) (ofInt128 2)).map toInt128 = .ok (-3) ∧
    (__divti3 false (ofInt128 7) (ofInt128 (-2))).map toInt128 = .ok (-3) ∧
    (__divti3 false (ofInt128 (-7)) (ofInt128 (-2))).map toInt128 = .ok 3 :=
  ⟨⟨⟨by norm_num, by norm_num, by norm_num, by norm_num, by norm_num, by norm_num⟩,
    divti3_truncates false (-7) 2 (by norm_num) (by norm_num) (by norm_num) (by norm_num)
      (by norm_num) (by norm_num)⟩, by decide, by decide, by decide⟩

/-- C4: for every 128-bit `a` and nonzero 128-bit `b`, the quotient `q` and
remainder `r` of `__udivmodti4(a, b)` satisfy `a = q * b + r` with the product
computed by `__multi3` (and the sum taken modulo `2^128`, where it does not
wrap), and `r < b`. -/
theorem udivmodti4_identity (x86_64 : Bool) (a b : Nat) (ha : a < 2 ^ 128) (hb0 : b ≠ 0)
    (hb : b < 2 ^ 128) :
    ∃ q r, __udivmodti4 x86_64 a b true = .ok (q, some r) ∧
      add128 (__multi3 q b) r = a ∧ __multi3 q b + r = a ∧ r < b := by
  have hbpos : 0 < b := by omega
  have hsum := Nat.div_add_mod a b
  have hq : a / b < 2 ^ 128 := lt_of_le_of_lt (Nat.div_le_self a b) ha
  have hmul : __multi3 (a / b) b = a / b * b := by
    rw [multi3_eq _ _ hq hb]
    apply Nat.mod_eq_of_lt
    have := Nat.div_mul_le_self a b
    omega
  have hexact : __multi3 (a / b) b + a % b = a := by
    rw [hmul, Nat.mul_comm]; exact hsum
  refine ⟨a / b, a % b, udivmodti4_eq x86_64 a b true ha hb0 hb, ?_, hexact,
    Nat.mod_lt _ hbpos⟩
  unfold add128 W128
  rw [hexact]
  exact Nat.mod_eq_of_lt ha

/-- C4 at a dividend whose quotient and remainder are both large. -/
theorem udivmodti4_identity_witness :
    (2 ^ 128 - 1 < 2 ^ 128 ∧ 2 ^ 64 + 3 ≠ 0 ∧ 2 ^ 64 + 3 < 2 ^ 128) ∧
      ∃ q r, __udivmodti4 false (2 ^ 128 - 1) (2 ^ 64 + 3) true = .ok (q, some r) ∧
        add128 (__multi3 q (2 ^ 64 + 3)) r = 2 ^ 128 - 1 ∧
        __multi3 q (2 ^ 64 + 3) + r = 2 ^ 128 - 1 ∧ r < 2 ^ 64 + 3 :=
  ⟨⟨by decide, by decide, by decide⟩,
    udivmodti4_identity false (2 ^ 128 - 1) (2 ^ 64 + 3) (by decide) (by decide) (by decide)⟩

/-- C5: for 64-bit `u1`, `u0`, `v` with `v ≠ 0` and `u1 < v`, the portable
fallback `udiv128by64to64default` returns `(u1 * 2^64 + u0) / v` and stores
`(u1 * 2^64 + u0) % v`; that is the result of the hardware divide `divq`, so
`udiv128by64to64` does not depend on which of the two is compiled in. -/
theorem udiv128by64to64default_refines (u1 u0 v : Nat) (hv0 : v ≠ 0) (hv : v < 2 ^ 64)
    (hu1 : u1 < v) (hu0 : u0 < 2 ^ 64) :
    udiv128by64to64default u1 u0 v =
        .ok ((u1 * 2 ^ 64 + u0) / v, (u1 * 2 ^ 64 + u0) % v) ∧
      udiv128by64to64default u1 u0 v = divq u1 u0 v ∧
      udiv128by64to64 false u1 u0 v = udiv128by64to64 true u1 u0 v := by
  have h1 := udiv128by64to64_eq false u1 u0 v hv0 hv hu1 hu0
  have h2 := udiv128by64to64_eq true u1 u0 v hv0 hv hu1 hu0
  have h3 : udiv128by64to64 false u1 u0 v = udiv128by64to64default u1 u0 v := rfl
  have h4 : udiv128by64to64 true u1 u0 v = divq u1 u0 v := rfl
  rw [h3] at h1
  rw [h4] at h2
  refine ⟨h1, ?_, ?_⟩
  · rw [h1, h2]
  · rw [h3, h4, h1, h2]

/-- C5 at a divisor with its top bit set (shift 0) and `u1 = v - 1`, with every
remaining dividend bit set. -/
theorem udiv128by64to64default_refines_witness :
    (2 ^ 64 - 1 ≠ 0 ∧ 2 ^ 64 - 1 < 2 ^ 64 ∧ 2 ^ 64 - 2 < 2 ^ 64 - 1 ∧ 2 ^ 64 - 1 < 2 ^ 64) ∧
      (udiv128by64to64default (2 ^ 64 - 2) (2 ^ 64 - 1) (2 ^ 64 - 1) =
          .ok (((2 ^ 64 - 2) * 2 ^ 64 + (2 ^ 64 - 1)) / (2 ^ 64 - 1),
               ((2 ^ 64 - 2) * 2 ^ 64 + (2 ^ 64 - 1)) % (2 ^ 64 - 1)) ∧
        udiv128by64to64default (2 ^ 64 - 2) (2 ^ 64 - 1) (2 ^ 64 - 1) =
          divq (2 ^ 64 - 2) (2 ^ 64 - 1) (2 ^ 64 - 1) ∧
        udiv128by64to64 false (2 ^ 64 - 2) (2 ^ 64 - 1) (2 ^ 64 - 1) =
          udiv128by64to64 true (2 ^ 64 - 2) (2 ^ 64 - 1) (2 ^ 64 - 1)) :=
  ⟨⟨by decide, by decide, by decide, by decide⟩,
    udiv128by64to64default_refines (2 ^ 64 - 2) (2 ^ 64 - 1) (2 ^ 64 - 1) (by decide)
      (by decide) (by decide) (by decide)⟩

/-- C6: for 64-bit `a` and `b`, `__mulddi3(a, b)` is the exact product:
`high * 2^64 + low = a * b` over the natural numbers. -/
theorem mulddi3_exact (a b : Nat) (ha : a < 2 ^ 64) (hb : b < 2 ^ 64) :
    highOf (__mulddi3 a b) * 2 ^ 64 + lowOf (__mulddi3 a b) = a * b ∧
      __mulddi3 a b = a * b := by
  have h := mulddi3_eq a b ha hb
  have hlt : a * b < 2 ^ 64 * 2 ^ 64 := Nat.mul_lt_mul'' ha hb
  refine ⟨?_, h⟩
  rw [h]
  generalize a * b = p at hlt
  unfold highOf lowOf W64
  omega

/-- C6 at the largest operands. -/
theorem mulddi3_exact_witness :
    (2 ^ 64 - 1 < 2 ^ 64 ∧ 2 ^ 64 - 1 < 2 ^ 64) ∧
      (highOf (__mulddi3 (2 ^ 64 - 1) (2 ^ 64 - 1)) * 2 ^ 64 +
          lowOf (__mulddi3 (2 ^ 64 - 1) (2 ^ 64 - 1)) = (2 ^ 64 - 1) * (2 ^ 64 - 1) ∧
        __mulddi3 (2 ^ 64 - 1) (2 ^ 64 - 1) = (2 ^ 64 - 1) * (2 ^ 64 - 1)) :=
  ⟨⟨by decide, by decide⟩, mulddi3_exact (2 ^ 64 - 1) (2 ^ 64 - 1) (by decide) (by decide)⟩

/-- C7: with divisor `0`, `__udivmodti4` takes neither the short circuit
(`0 > a` is false) nor the long-division loop (the high word of `0` is `0`), nor
the first narrow sub-case (`dividend.high < 0` is false); it reaches
`dividend.s.high / divisor.s.low` with `divisor.s.low = 0` and produces no
result, and so do `__udivti3` and `__divti3`.  With a nonzero divisor no
division by zero is reached: all three return a value. -/
theorem division_by_zero_only_for_zero_divisor (x86_64 : Bool) (a : Nat) (rem : Bool)
    (ha : a < 2 ^ 128) :
    (¬(0 > a) ∧ highOf 0 = 0 ∧ ¬(highOf a < lowOf 0) ∧ lowOf 0 = 0) ∧
      __udivmodti4 x86_64 a 0 rem = .error (.divByZero .highByLow) ∧
      __udivti3 x86_64 a 0 = .error (.divByZero .highByLow) ∧
      __divti3 x86_64 a 0 = .error (.divByZero .highByLow) ∧
      ∀ b, b ≠ 0 → b < 2 ^ 128 →
        (∃ res, __udivmodti4 x86_64 a b rem = .ok res) ∧
        (∀ site, __udivmodti4 x86_64 a b rem ≠ .error (.divByZero site)) ∧
        (∃ q, __udivti3 x86_64 a b = .ok q) ∧
        (∃ q, __divti3 x86_64 a b = .ok q) := by
  have h1 : highOf 0 = 0 := by decide
  have h2 : lowOf 0 = 0 := by decide
  refine ⟨⟨by omega, h1, by rw [h2]; omega, h2⟩, udivmodti4_zero x86_64 a rem, ?_, ?_, ?_⟩
  · unfold __udivti3
    rw [udivmodti4_zero]; rfl
  · have hb : add128 (0 ^^^ sar128 0 (16 * 8 - 1)) (neg128 (sar128 0 (16 * 8 - 1))) = 0 := by
      decide
    unfold __divti3 __divXi3 COMPUTE_UDIV
    simp only [hb, udivmodti4_zero]
    rfl
  · intro b hb0 hb
    have hres := udivmodti4_eq x86_64 a b rem ha hb0 hb
    refine ⟨⟨_, hres⟩, ?_, ⟨_, udivti3_eq x86_64 a b ha hb0 hb⟩, ?_⟩
    · intro site h
      rw [hres] at h
      exact Except.noConfusion h
    · have hN : 16 * 8 - 1 = 127 := rfl
      have hbu : (toInt128 b).natAbs ≠ 0 := by
        rcases toInt128_cases b hb with ⟨_, _, _, h⟩ | ⟨_, _, _, h⟩ <;> omega
      have hlt : ∀ x : Nat, x < 2 ^ 128 → (toInt128 x).natAbs < 2 ^ 128 := by
        intro x hx
        rcases toInt128_cases x hx with ⟨_, _, _, h⟩ | ⟨_, _, _, h⟩ <;> omega
      unfold __divti3 __divXi3
      simp only [hN, abs_via_mask a ha, abs_via_mask b hb]
      rw [COMPUTE_UDIV_eq x86_64 _ _ (hlt a ha) hbu (hlt b hb)]
      exact ⟨_, rfl⟩

/-- C7 at dividend `5`: divisor `0` faults at the high-by-low division, divisor
`3` does not. -/
theorem division_by_zero_only_for_zero_divisor_witness :
    5 < 2 ^ 128 ∧
      ((¬(0 > 5) ∧ highOf 0 = 0 ∧ ¬(highOf 5 < lowOf 0) ∧ lowOf 0 = 0) ∧
        __udivmodti4 false 5 0 true = .error (.divByZero .highByLow) ∧
        __udivti3 false 5 0 = .error (.divByZero .highByLow) ∧
        __divti3 false 5 0 = .error (.divByZero .highByLow) ∧
        ∀ b, b ≠ 0 → b < 2 ^ 128 →
          (∃ res, __udivmodti4 false 5 b true = .ok res) ∧
          (∀ site, __udivmodti4 false 5 b true ≠ .error (.divByZero site)) ∧
          (∃ q, __udivti3 false 5 b = .ok q) ∧
          (∃ q, __divti3 false 5 b = .ok q)) :=
  ⟨by decide, division_by_zero_only_for_zero_divisor false 5 true (by decide)⟩

/-- C8: for 128-bit `a` and nonzero 128-bit `b`, `__udivti3(a, b)` is the
quotient returned by `__udivmodti4(a, b, &rem)` with a non-null `rem`. -/
theorem udivti3_is_quotient (x86_64 : Bool) (a b : Nat) (ha : a < 2 ^ 128) (hb0 : b ≠ 0)
    (hb : b < 2 ^ 128) :
    ∃ q r, __udivmodti4 x86_64 a b true = .ok (q, some r) ∧ __udivti3 x86_64 a b = .ok q :=
  ⟨a / b, a % b, udivmodti4_eq x86_64 a b true ha hb0 hb, udivti3_eq x86_64 a b ha hb0 hb⟩

/-- C8 at a divisor with a nonzero high word. -/
theorem udivti3_is_quotient_witness :
    (2 ^ 128 - 1 < 2 ^ 128 ∧ 2 ^ 100 + 7 ≠ 0 ∧ 2 ^ 100 + 7 < 2 ^ 128) ∧
      ∃ q r, __udivmodti4 false (2 ^ 128 - 1) (2 ^ 100 + 7) true = .ok (q, some r) ∧
        __udivti3 false (2 ^ 128 - 1) (2 ^ 100 + 7) = .ok q :=
  ⟨⟨by decide, by decide, by decide⟩,
    udivti3_is_quotient false (2 ^ 128 - 1) (2 ^ 100 + 7) (by decide) (by decide) (by decide)⟩

/-- C9: when `b > a`, `__udivmodti4(a, b, &rem)` returns quotient `0` and stores
remainder `a`. -/
theorem udivmodti4_divisor_exceeds (x86_64 : Bool) (a b : Nat) (h : b > a) :
    __udivmodti4 x86_64 a b true = .ok (0, some a) := by
  unfold __udivmodti4
  simp only []
  rw [if_pos h]
  rfl

/-- C9 at `a = 2^64` and `b = 2^128 - 1`. -/
theorem udivmodti4_divisor_exceeds_witness :
    2 ^ 128 - 1 > 2 ^ 64 ∧ __udivmodti4 false (2 ^ 64) (2 ^ 128 - 1) true = .ok (0, some (2 ^ 64)) :=
  ⟨by decide, udivmodti4_divisor_exceeds false (2 ^ 64) (2 ^ 128 - 1) (by decide)⟩

/-- C10: for every 128-bit `a`, zero and values with a nonzero high word
included, `__udivmodti4(a, 1, &rem)` returns quotient `a` and stores remainder
`0`. -/
theorem udivmodti4_by_one (x86_64 : Bool) (a : Nat) (ha : a < 2 ^ 128) :
    __udivmodti4 x86_64 a 1 true = .ok (a, some 0) := by
  rw [udivmodti4_eq x86_64 a 1 true ha (by omega) (by norm_num), Nat.div_one, Nat.mod_one]
  rfl

/-- C10 at `a = 0` and at the largest `a`. -/
theorem udivmodti4_by_one_witness :
    (0 < 2 ^ 128 ∧ __udivmodti4 false 0 1 true = .ok (0, some 0)) ∧
    (2 ^ 128 - 1 < 2 ^ 128 ∧
      __udivmodti4 false (2 ^ 128 - 1) 1 true = .ok (2 ^ 128 - 1, some 0)) :=
  ⟨⟨by decide, udivmodti4_by_one false 0 (by decide)⟩,
    ⟨by decide, udivmodti4_by_one false (2 ^ 128 - 1) (by decide)⟩⟩

/-- C11: for 128-bit `a` and `b`, `__multi3(a, b) = __multi3(b, a)`, although
`__mulddi3` does not use its two arguments in the same way (it, too, is
commutative on 64-bit operands). -/
theorem multi3_comm (a b : Nat) (ha : a < 2 ^ 128) (hb : b < 2 ^ 128) :
    __multi3 a b = __multi3 b a ∧
      __mulddi3 (lowOf a) (lowOf b) = __mulddi3 (lowOf b) (lowOf a) := by
  have h1 : lowOf a < 2 ^ 64 := Nat.mod_lt _ (by norm_num)
  have h2 : lowOf b < 2 ^ 64 := Nat.mod_lt _ (by norm_num)
  refine ⟨?_, ?_⟩
  · rw [multi3_eq a b ha hb, multi3_eq b a hb ha, Nat.mul_comm]
  · rw [mulddi3_eq _ _ h1 h2, mulddi3_eq _ _ h2 h1, Nat.mul_comm]

/-- C11 at two operands with all four words different. -/
theorem multi3_comm_witness :
    (2 ^ 100 + 12345 < 2 ^ 128 ∧ 2 ^ 127 + 2 ^ 64 + 99 < 2 ^ 128) ∧
      (__multi3 (2 ^ 100 + 12345) (2 ^ 127 + 2 ^ 64 + 99) =
          __multi3 (2 ^ 127 + 2 ^ 64 + 99) (2 ^ 100 + 12345) ∧
        __mulddi3 (lowOf (2 ^ 100 + 12345)) (lowOf (2 ^ 127 + 2 ^ 64 + 99)) =
          __mulddi3 (lowOf (2 ^ 127 + 2 ^ 64 + 99)) (lowOf (2 ^ 100 + 12345))) :=
  ⟨⟨by decide, by decide⟩,
    multi3_comm (2 ^ 100 + 12345) (2 ^ 127 + 2 ^ 64 + 99) (by decide) (by decide)⟩

/-- C12: for every 128-bit `a`, `__multi3(a, 1) = a`. -/
theorem multi3_one (a : Nat) (ha : a < 2 ^ 128) : __multi3 a 1 = a := by
  rw [multi3_eq a 1 ha (by norm_num), Nat.mul_one]
  exact Nat.mod_eq_of_lt ha

/-- C12 at the largest operand. -/
theorem multi3_one_witness :
    2 ^ 128 - 1 < 2 ^ 128 ∧ __multi3 (2 ^ 128 - 1) 1 = 2 ^ 128 - 1 :=
  ⟨by decide, multi3_one (2 ^ 128 - 1) (by decide)⟩

/-- C13: `__udivmodti4` at dividend `0xFFFFFFFFFFFFFFFF_FFFFFFFFFFFFFFFF` and
divisor `0x8000000000000000_0000000000000001` returns quotient `1` and stores
remainder `0x7FFFFFFFFFFFFFFF_FFFFFFFFFFFFFFFE`; the divisor does not exceed the
dividend and has a nonzero high word, so the value comes from the binary
long-division branch. -/
theorem udivmodti4_full_divisor (x86_64 : Bool) :
    __udivmodti4 x86_64 0xFFFFFFFFFFFFFFFFFFFFFFFFFFFFFFFF 0x80000000000000000000000000000001
        true = .ok (1, some 0x7FFFFFFFFFFFFFFFFFFFFFFFFFFFFFFE) ∧
      ¬(0x80000000000000000000000000000001 > 0xFFFFFFFFFFFFFFFFFFFFFFFFFFFFFFFF) ∧
      highOf 0x80000000000000000000000000000001 ≠ 0 ∧
      udivmodWide 0xFFFFFFFFFFFFFFFFFFFFFFFFFFFFFFFF 0x80000000000000000000000000000001 true =
        .ok (1, some 0x7FFFFFFFFFFFFFFFFFFFFFFFFFFFFFFE) := by
  cases x86_64 <;> decide

set_option maxRecDepth 20000 in
/-- C19: in the overflow case `__divti3(-2^127, -1)` the code faults nowhere
and returns the bit pattern `2^127`, which reads as `-2^127`: the magnitude
`2^127 / 1` is reinterpreted as the minimum signed value, and the result is not
zero. -/
theorem divti3_overflow_case (x86_64 : Bool) :
    (__divti3 x86_64 (ofInt128 (-2 ^ 127)) (ofInt128 (-1))).map toInt128 = .ok (-2 ^ 127) ∧
      ofInt128 (-2 ^ 127) = 2 ^ 127 ∧ ofInt128 (-1) = 2 ^ 128 - 1 ∧
      __divti3 x86_64 (2 ^ 127) (2 ^ 128 - 1) = .ok (2 ^ 127) ∧
      COMPUTE_UDIV x86_64 (2 ^ 127) 1 = .ok (2 ^ 127) ∧
      toInt128 (2 ^ 127) = -2 ^ 127 ∧ toInt128 (2 ^ 127) ≠ 0 := by
  refine ⟨?_, by decide, by decide, ?_, ?_, by decide, by decide⟩
  · cases x86_64 <;> decide
  · cases x86_64 <;> decide
  · cases x86_64 <;> decide

/-! ### Facts about the quotient digits of Algorithm D -/

/-- The true quotient digit is below the base. -/
theorem digit_lt_base (v un d : Nat) (hun : un < v) (hd : d < 2 ^ 32) :
    (un * 2 ^ 32 + d) / v < 2 ^ 32 := by
  rw [Nat.div_lt_iff_lt_mul (by omega)]
  have : (un + 1) * 2 ^ 32 ≤ v * 2 ^ 32 := Nat.mul_le_mul_right _ hun
  omega

/-- The estimate `un / vn1` is never below the true quotient digit. -/
theorem digit_le_estimate (v un d : Nat) (hv1 : 2 ^ 63 ≤ v) (hd : d < 2 ^ 32) :
    (un * 2 ^ 32 + d) / v ≤ un / (v / 2 ^ 32) := by
  have hv : v = v / 2 ^ 32 * 2 ^ 32 + v % 2 ^ 32 := by omega
  have hQ1 : (un * 2 ^ 32 + d) / v * v ≤ un * 2 ^ 32 + d := Nat.div_mul_le_self _ _
  rw [Nat.le_div_iff_mul_le (by omega)]
  generalize (un * 2 ^ 32 + d) / v = Q at hQ1 ⊢
  have h5 : Q * v = (Q * (v / 2 ^ 32)) * 2 ^ 32 + Q * (v % 2 ^ 32) := by
    conv_lhs => rw [hv]
    ring
  omega

/-- For a normalised divisor the estimate `un / vn1` exceeds the true quotient
digit by at most two. -/
theorem estimate_excess (v un d : Nat) (hv1 : 2 ^ 63 ≤ v) (hv2 : v < 2 ^ 64) (hun : un < v)
    (hd : d < 2 ^ 32) :
    un / (v / 2 ^ 32) ≤ (un * 2 ^ 32 + d) / v + 2 := by
  have hv : v = v / 2 ^ 32 * 2 ^ 32 + v % 2 ^ 32 := by omega
  have hvpos : 0 < v := by omega
  have hQb := digit_lt_base v un d hun hd
  have hQ2 : un * 2 ^ 32 + d < ((un * 2 ^ 32 + d) / v + 1) * v := by
    have h1 := Nat.div_add_mod (un * 2 ^ 32 + d) v
    have h2 := Nat.mod_lt (un * 2 ^ 32 + d) hvpos
    nlinarith
  have hq1 : un / (v / 2 ^ 32) * (v / 2 ^ 32) ≤ un := Nat.div_mul_le_self _ _
  generalize (un * 2 ^ 32 + d) / v = Q at hQb hQ2 ⊢
  generalize un / (v / 2 ^ 32) = q at hq1 ⊢
  by_contra hcon
  have h3 : (Q + 3) * (v / 2 ^ 32) ≤ q * (v / 2 ^ 32) := Nat.mul_le_mul_right _ (by omega)
  have h4 : (Q + 3) * (v / 2 ^ 32) = (Q + 1) * (v / 2 ^ 32) + 2 * (v / 2 ^ 32) := by ring
  have h5 : (Q + 1) * v = ((Q + 1) * (v / 2 ^ 32)) * 2 ^ 32 + (Q + 1) * (v % 2 ^ 32) := by
    conv_lhs => rw [hv]
    ring
  have h6 : (Q + 1) * (v % 2 ^ 32) ≤ (Q + 1) * (2 ^ 32 - 1) :=
    Nat.mul_le_mul_left _ (by omega)
  generalize (Q + 1) * (v / 2 ^ 32) = X at h3 h4 h5
  generalize (Q + 1) * (v % 2 ^ 32) = Y at h5 h6
  generalize q * (v / 2 ^ 32) = Z at h3 hq1
  generalize (Q + 1) * v = P at hQ2 h5
  omega

/-- The wrapping expression `un * b + d - q * v` of the source, at the true
digit `q`, is the true partial remainder, although `un * b` may wrap. -/
theorem partial_remainder_wraps (v un d : Nat) (hv2 : v < 2 ^ 64) (hv0 : 0 < v) :
    sub64 (add64 (mul64 un (2 ^ 32)) d) (mul64 ((un * 2 ^ 32 + d) / v) v) =
      (un * 2 ^ 32 + d) % v := by
  have hQ3 := Nat.div_add_mod (un * 2 ^ 32 + d) v
  have hQ4 := Nat.mod_lt (un * 2 ^ 32 + d) hv0
  rw [Nat.mul_comm] at hQ3
  unfold sub64 add64 mul64 W64
  generalize (un * 2 ^ 32 + d) / v * v = P at hQ3 ⊢
  generalize (un * 2 ^ 32 + d) % v = R at hQ3 hQ4 ⊢
  omega

/-- Every value on the way through `udiv128by64to64default`, in terms of the
normalised operands `V` (divisor), `H` (`un64`) and `L` (`un10`). -/
theorem trace_fields (u1 u0 v : Nat) (hv0 : v ≠ 0) (hv : v < 2 ^ 64) (hu1 : u1 < v)
    (hu0 : u0 < 2 ^ 64) :
    ∃ s V H L, s = leadingZeros v 64 ∧ V = v * 2 ^ s ∧
      H = (u1 * 2 ^ 64 + u0) * 2 ^ s / 2 ^ 64 ∧ L = (u1 * 2 ^ 64 + u0) * 2 ^ s % 2 ^ 64 ∧
      s < 64 ∧ 2 ^ 63 ≤ V ∧ V < 2 ^ 64 ∧ H < V ∧ L < 2 ^ 64 ∧
      udiv128by64to64defaultTrace u1 u0 v = .ok
        ⟨s, V, H, L,
         H / (V / 2 ^ 32),
         (H * 2 ^ 32 + L / 2 ^ 32) / V,
         H / (V / 2 ^ 32) - (H * 2 ^ 32 + L / 2 ^ 32) / V,
         (H * 2 ^ 32 + L / 2 ^ 32) % V,
         (H * 2 ^ 32 + L / 2 ^ 32) % V / (V / 2 ^ 32),
         ((H * 2 ^ 32 + L / 2 ^ 32) % V * 2 ^ 32 + L % 2 ^ 32) / V,
         (H * 2 ^ 32 + L / 2 ^ 32) % V / (V / 2 ^ 32) -
           ((H * 2 ^ 32 + L / 2 ^ 32) % V * 2 ^ 32 + L % 2 ^ 32) / V,
         ((H * 2 ^ 32 + L / 2 ^ 32) % V * 2 ^ 32 + L % 2 ^ 32) % V,
         (u1 * 2 ^ 64 + u0) / v,
         (u1 * 2 ^ 64 + u0) % v⟩ ∧
      ((H * 2 ^ 32 + L / 2 ^ 32) % V * 2 ^ 32 + L % 2 ^ 32) % V =
        (u1 * 2 ^ 64 + u0) % v * 2 ^ s := by
  obtain ⟨t, ht, hq, hr, hdig, hs, hV1, hV2, hH⟩ :=
    udiv128by64to64defaultTrace_spec u1 u0 v hv0 hv hu1 hu0
  have hL : (u1 * 2 ^ 64 + u0) * 2 ^ leadingZeros v 64 % 2 ^ 64 < 2 ^ 64 :=
    Nat.mod_lt _ (by norm_num)
  have hspec := udivDigits_spec _ _ _ _ hs hV1 hV2 hH hL
  have hUeq : (u1 * 2 ^ 64 + u0) * 2 ^ leadingZeros v 64 / 2 ^ 64 * 2 ^ 64 +
      (u1 * 2 ^ 64 + u0) * 2 ^ leadingZeros v 64 % 2 ^ 64 =
      (u1 * 2 ^ 64 + u0) * 2 ^ leadingZeros v 64 := by
    have := Nat.div_add_mod ((u1 * 2 ^ 64 + u0) * 2 ^ leadingZeros v 64) (2 ^ 64)
    omega
  obtain ⟨_, e2⟩ := two_digit_division (v * 2 ^ leadingZeros v 64)
    ((u1 * 2 ^ 64 + u0) * 2 ^ leadingZeros v 64 / 2 ^ 64)
    ((u1 * 2 ^ 64 + u0) * 2 ^ leadingZeros v 64 % 2 ^ 64) (by omega)
  rw [hUeq, Nat.mul_mod_mul_right] at e2
  rw [hUeq, Nat.mul_div_mul_right _ _ (Nat.two_pow_pos _), Nat.mul_mod_mul_right,
    Nat.mul_div_cancel _ (Nat.two_pow_pos _)] at hspec
  rw [hspec] at hdig
  have ht2 := Except.ok.inj hdig
  refine ⟨_, _, _, _, rfl, rfl, rfl, rfl, hs, hV1, hV2, hH, hL, ?_, e2.symm⟩
  rw [ht, ← ht2]

/-- C17: in `udiv128by64to64default`, for `v ≠ 0` and `u1 < v`, each of the two
correction loops runs its body at most twice: the estimates `un64 / vn1` and
`un21 / vn1` exceed the final digits `q1` and `q0` by the number of iterations,
which is at most 2, and both final digits are below `2^32`. -/
theorem correction_loops_at_most_two (u1 u0 v : Nat) (hv0 : v ≠ 0) (hv : v < 2 ^ 64)
    (hu1 : u1 < v) (hu0 : u0 < 2 ^ 64) :
    ∃ t, udiv128by64to64defaultTrace u1 u0 v = .ok t ∧
      t.qhat1 = t.un64 / (t.v / 2 ^ 32) ∧ t.qhat0 = t.un21 / (t.v / 2 ^ 32) ∧
      t.iters1 ≤ 2 ∧ t.iters0 ≤ 2 ∧
      t.q1 + t.iters1 = t.qhat1 ∧ t.q0 + t.iters0 = t.qhat0 ∧
      t.qhat1 ≤ t.q1 + 2 ∧ t.qhat0 ≤ t.q0 + 2 ∧
      t.q1 < 2 ^ 32 ∧ t.q0 < 2 ^ 32 := by
  obtain ⟨s, V, H, L, _, _, _, _, _, hV1, hV2, hH, hL, htrace, _⟩ :=
    trace_fields u1 u0 v hv0 hv hu1 hu0
  have hVpos : 0 < V := by omega
  have hd1 : L / 2 ^ 32 < 2 ^ 32 := by omega
  have hd0 : L % 2 ^ 32 < 2 ^ 32 := by omega
  have hun21 : (H * 2 ^ 32 + L / 2 ^ 32) % V < V := Nat.mod_lt _ hVpos
  have a1 := digit_le_estimate V H (L / 2 ^ 32) hV1 hd1
  have a2 := estimate_excess V H (L / 2 ^ 32) hV1 hV2 hH hd1
  have a3 := digit_lt_base V H (L / 2 ^ 32) hH hd1
  have b1 := digit_le_estimate V ((H * 2 ^ 32 + L / 2 ^ 32) % V) (L % 2 ^ 32) hV1 hd0
  have b2 := estimate_excess V ((H * 2 ^ 32 + L / 2 ^ 32) % V) (L % 2 ^ 32) hV1 hV2 hun21 hd0
  have b3 := digit_lt_base V ((H * 2 ^ 32 + L / 2 ^ 32) % V) (L % 2 ^ 32) hun21 hd0
  refine ⟨_, htrace, rfl, rfl, ?_, ?_, ?_, ?_, ?_, ?_, a3, b3⟩ <;> dsimp only <;> omega

/-- C17 at an input where the first loop runs and the dividend is large. -/
theorem correction_loops_at_most_two_witness :
    (2 ^ 34 + 2 ^ 32 - 1 ≠ 0 ∧ 2 ^ 34 + 2 ^ 32 - 1 < 2 ^ 64 ∧ 2 ^ 33 < 2 ^ 34 + 2 ^ 32 - 1 ∧
        2 ^ 64 - 1 < 2 ^ 64) ∧
      ∃ t, udiv128by64to64defaultTrace (2 ^ 33) (2 ^ 64 - 1) (2 ^ 34 + 2 ^ 32 - 1) = .ok t ∧
        t.qhat1 = t.un64 / (t.v / 2 ^ 32) ∧ t.qhat0 = t.un21 / (t.v / 2 ^ 32) ∧
        t.iters1 ≤ 2 ∧ t.iters0 ≤ 2 ∧
        t.q1 + t.iters1 = t.qhat1 ∧ t.q0 + t.iters0 = t.qhat0 ∧
        t.qhat1 ≤ t.q1 + 2 ∧ t.qhat0 ≤ t.q0 + 2 ∧
        t.q1 < 2 ^ 32 ∧ t.q0 < 2 ^ 32 :=
  ⟨⟨by decide, by decide, by decide, by decide⟩,
    correction_loops_at_most_two (2 ^ 33) (2 ^ 64 - 1) (2 ^ 34 + 2 ^ 32 - 1) (by decide)
      (by decide) (by decide) (by decide)⟩

/-- C20: in `udiv128by64to64default`, for `v ≠ 0` and `u1 < v`, the wrapping
expression `un64 * b + un1 - q1 * v` that gives `un21` equals the integer
`un64 * 2^32 + un1 - q1 * v`, which lies in `[0, v)` for the normalised `v`;
the wrapping expression `un21 * b + un0 - q0 * v` equals the integer of the
same form, is the true remainder shifted left by `s`, is below `v` and has its
low `s` bits zero, so `>> s` loses nothing and leaves the true remainder. -/
theorem partial_remainders_exact (u1 u0 v : Nat) (hv0 : v ≠ 0) (hv : v < 2 ^ 64)
    (hu1 : u1 < v) (hu0 : u0 < 2 ^ 64) :
    ∃ t, udiv128by64to64defaultTrace u1 u0 v = .ok t ∧
      t.v = v * 2 ^ t.s ∧ 2 ^ 63 ≤ t.v ∧ t.v < 2 ^ 64 ∧
      t.un21 = sub64 (add64 (mul64 t.un64 (2 ^ 32)) (t.un10 / 2 ^ 32)) (mul64 t.q1 t.v) ∧
      (t.un21 : Int) =
        (t.un64 : Int) * 2 ^ 32 + ((t.un10 / 2 ^ 32 : Nat) : Int) - (t.q1 : Int) * (t.v : Int) ∧
      t.un21 < t.v ∧
      t.rnorm = sub64 (add64 (mul64 t.un21 (2 ^ 32)) (t.un10 % 2 ^ 32)) (mul64 t.q0 t.v) ∧
      (t.rnorm : Int) =
        (t.un21 : Int) * 2 ^ 32 + ((t.un10 % 2 ^ 32 : Nat) : Int) - (t.q0 : Int) * (t.v : Int) ∧
      t.rnorm < t.v ∧
      t.rnorm = (u1 * 2 ^ 64 + u0) % v * 2 ^ t.s ∧
      t.rnorm % 2 ^ t.s = 0 ∧
      t.r * 2 ^ t.s = t.rnorm ∧
      t.r = shr64 t.rnorm t.s ∧
      t.r = (u1 * 2 ^ 64 + u0) % v := by
  obtain ⟨s, V, H, L, _, hVeq, _, _, _, hV1, hV2, hH, hL, htrace, hrn⟩ :=
    trace_fields u1 u0 v hv0 hv hu1 hu0
  have hVpos : 0 < V := by omega
  have hint : ∀ N : Nat, ((N % V : Nat) : Int) = (N : Int) - ((N / V : Nat) : Int) * (V : Int) := by
    intro N
    have h := Nat.div_add_mod N V
    generalize N / V = q at h ⊢
    generalize N % V = r at h ⊢
    have h' : ((V * q + r : Nat) : Int) = (N : Int) := by rw [h]
    push_cast at h'
    linarith
  refine ⟨_, htrace, hVeq, hV1, hV2, ?_, ?_, Nat.mod_lt _ hVpos, ?_, ?_, Nat.mod_lt _ hVpos,
    hrn, ?_, ?_, ?_, rfl⟩ <;> dsimp only
  · exact (partial_remainder_wraps V H (L / 2 ^ 32) hV2 hVpos).symm
  · rw [hint]; push_cast; ring
  · exact (partial_remainder_wraps V _ (L % 2 ^ 32) hV2 hVpos).symm
  · rw [hint]; push_cast; ring
  · rw [hrn]; exact Nat.mul_mod_left _ _
  · rw [hrn]
  · rw [hrn, shr64_eq, Nat.mul_div_cancel _ (Nat.two_pow_pos _)]

/-- C20 at an input for which the sub-term `un64 * b` exceeds `2^64`. -/
theorem partial_remainders_exact_witness :
    ((2 ^ 64 - 1 ≠ 0 ∧ 2 ^ 64 - 1 < 2 ^ 64 ∧ 2 ^ 64 - 2 < 2 ^ 64 - 1 ∧ 2 ^ 64 - 1 < 2 ^ 64) ∧
      ∃ t, udiv128by64to64defaultTrace (2 ^ 64 - 2) (2 ^ 64 - 1) (2 ^ 64 - 1) = .ok t ∧
        t.v = (2 ^ 64 - 1) * 2 ^ t.s ∧ 2 ^ 63 ≤ t.v ∧ t.v < 2 ^ 64 ∧
        t.un21 = sub64 (add64 (mul64 t.un64 (2 ^ 32)) (t.un10 / 2 ^ 32)) (mul64 t.q1 t.v) ∧
        (t.un21 : Int) =
          (t.un64 : Int) * 2 ^ 32 + ((t.un10 / 2 ^ 32 : Nat) : Int) -
            (t.q1 : Int) * (t.v : Int) ∧
        t.un21 < t.v ∧
        t.rnorm = sub64 (add64 (mul64 t.un21 (2 ^ 32)) (t.un10 % 2 ^ 32)) (mul64 t.q0 t.v) ∧
        (t.rnorm : Int) =
          (t.un21 : Int) * 2 ^ 32 + ((t.un10 % 2 ^ 32 : Nat) : Int) -
            (t.q0 : Int) * (t.v : Int) ∧
        t.rnorm < t.v ∧
        t.rnorm = ((2 ^ 64 - 2) * 2 ^ 64 + (2 ^ 64 - 1)) % (2 ^ 64 - 1) * 2 ^ t.s ∧
        t.rnorm % 2 ^ t.s = 0 ∧
        t.r * 2 ^ t.s = t.rnorm ∧
        t.r = shr64 t.rnorm t.s ∧
        t.r = ((2 ^ 64 - 2) * 2 ^ 64 + (2 ^ 64 - 1)) % (2 ^ 64 - 1)) ∧
    (udiv128by64to64defaultTrace (2 ^ 64 - 2) (2 ^ 64 - 1) (2 ^ 64 - 1)).map
        (fun t => decide (2 ^ 64 ≤ t.un64 * 2 ^ 32 ∧ 2 ^ 64 ≤ t.q1 * t.v)) = .ok true :=
  ⟨⟨⟨by decide, by decide, by decide, by decide⟩,
    partial_remainders_exact (2 ^ 64 - 2) (2 ^ 64 - 1) (2 ^ 64 - 1) (by decide) (by decide)
      (by decide) (by decide)⟩, by decide⟩

theorem mulddi3Ops_result (a b : Nat) : (mulddi3Ops a b).2 = __mulddi3 a b := rfl

/-- C18: in `__mulddi3`, for 64-bit `a` and `b`, every multiplication, addition
and left shift is exact: the value of each of the twelve operations on its
64-bit operands is below `2^64`, so none of them wraps. -/
theorem mulddi3_carry_exact (a b : Nat) (ha : a < 2 ^ 64) (hb : b < 2 ^ 64) :
    (mulddi3Ops a b).2 = __mulddi3 a b ∧ (mulddi3Ops a b).1.length = 12 ∧
      ∀ x ∈ (mulddi3Ops a b).1, x < 2 ^ 64 := by
  refine ⟨rfl, rfl, ?_⟩
  have hmask : shr64 (W64 - 1) (8 * 8 / 2) = 2 ^ 32 - 1 := by decide
  have h32 : 8 * 8 / 2 = 32 := rfl
  have hah : a / 2 ^ 32 < 2 ^ 32 := by omega
  have hbh : b / 2 ^ 32 < 2 ^ 32 := by omega
  have p0 : a % 2 ^ 32 * (b % 2 ^ 32) ≤ (2 ^ 32 - 1) * (2 ^ 32 - 1) :=
    Nat.mul_le_mul (by omega) (by omega)
  have p1 : a / 2 ^ 32 * (b % 2 ^ 32) ≤ (2 ^ 32 - 1) * (2 ^ 32 - 1) :=
    Nat.mul_le_mul (by omega) (by omega)
  have p2 : b / 2 ^ 32 * (a % 2 ^ 32) ≤ (2 ^ 32 - 1) * (2 ^ 32 - 1) :=
    Nat.mul_le_mul (by omega) (by omega)
  have p3 : a / 2 ^ 32 * (b / 2 ^ 32) ≤ (2 ^ 32 - 1) * (2 ^ 32 - 1) :=
    Nat.mul_le_mul (by omega) (by omega)
  unfold mulddi3Ops
  simp only [hmask, Nat.and_pow_two_sub_one_eq_mod, shr64_eq, Nat.shiftLeft_eq, h32]
  generalize a % 2 ^ 32 * (b % 2 ^ 32) = P0 at p0 ⊢
  generalize a / 2 ^ 32 * (b % 2 ^ 32) = P1 at p1 ⊢
  generalize b / 2 ^ 32 * (a % 2 ^ 32) = P2 at p2 ⊢
  generalize a / 2 ^ 32 * (b / 2 ^ 32) = P3 at p3 ⊢
  clear hah hbh ha hb hmask h32
  intro x hx
  simp only [List.mem_cons, List.mem_singleton, List.not_mem_nil, or_false] at hx
  unfold W64 at hx
  rcases hx with h | h | h | h | h | h | h | h | h | h | h | h <;> rw [h] <;> omega

/-- C18 at the largest operands, where the last addition reaches `2^64 - 2`. -/
theorem mulddi3_carry_exact_witness :
    ((2 ^ 64 - 1 < 2 ^ 64 ∧ 2 ^ 64 - 1 < 2 ^ 64) ∧
      (mulddi3Ops (2 ^ 64 - 1) (2 ^ 64 - 1)).2 = __mulddi3 (2 ^ 64 - 1) (2 ^ 64 - 1) ∧
      (mulddi3Ops (2 ^ 64 - 1) (2 ^ 64 - 1)).1.length = 12 ∧
      ∀ x ∈ (mulddi3Ops (2 ^ 64 - 1) (2 ^ 64 - 1)).1, x < 2 ^ 64) ∧
    (mulddi3Ops (2 ^ 64 - 1) (2 ^ 64 - 1)).1.getLast? = some (2 ^ 64 - 2) :=
  ⟨⟨⟨by decide, by decide⟩, mulddi3_carry_exact (2 ^ 64 - 1) (2 ^ 64 - 1) (by decide) (by decide)⟩,
    by decide⟩

/-! ### The states of the long-division loop -/

/-- On entry to the long-division branch the dividend has a nonzero high word,
the shift is between 0 and 63, the shifted divisor still fits in 128 bits, and
the loop invariant holds. -/
theorem longDiv_init (a b : Nat) (ha : a < 2 ^ 128) (hb : b < 2 ^ 128) (hh : highOf b ≠ 0)
    (hle : b ≤ a) :
    highOf a ≠ 0 ∧ leadingZeros (highOf a) 64 ≤ leadingZeros (highOf b) 64 ∧
      leadingZeros (highOf b) 64 < 64 ∧ b * 2 ^ longDivShift a b < 2 ^ 128 ∧
      LongDivInv b ⟨a, b * 2 ^ longDivShift a b, 0⟩ (longDivShift a b) := by
  have hbh : highOf b = b / 2 ^ 64 := by unfold highOf W64; omega
  have hah : highOf a = a / 2 ^ 64 := by unfold highOf W64; omega
  unfold longDivShift LongDivInv
  rw [hbh, hah]
  rw [hbh] at hh
  have hbh2 : b / 2 ^ 64 < 2 ^ 64 := by omega
  have hah2 : a / 2 ^ 64 < 2 ^ 64 := by omega
  have hah0 : a / 2 ^ 64 ≠ 0 := by omega
  obtain ⟨hc1, hb1, hb2⟩ := leadingZeros_bounds (b / 2 ^ 64) hh hbh2
  obtain ⟨hc2, ha1, ha2⟩ := leadingZeros_bounds (a / 2 ^ 64) hah0 hah2
  generalize leadingZeros (b / 2 ^ 64) 64 = c1 at hc1 hb1 hb2 ⊢
  generalize leadingZeros (a / 2 ^ 64) 64 = c2 at hc2 ha1 ha2 ⊢
  have hc : c2 ≤ c1 := by
    by_contra hcon
    have : (2 : Nat) ^ (64 - c2) ≤ 2 ^ (63 - c1) :=
      Nat.pow_le_pow_right (by norm_num) (by omega)
    omega
  have hX2 : (2 : Nat) ^ (64 - c2) * 2 ^ 64 = 2 * (2 ^ (63 - c2) * 2 ^ 64) := by
    have : 64 - c2 = (63 - c2) + 1 := by omega
    rw [this, pow_succ]; ring
  have hXle : 2 * (2 ^ (63 - c2) * 2 ^ 64) ≤ 2 ^ 128 := by
    rw [← hX2, ← pow_add]
    exact Nat.pow_le_pow_right (by norm_num) (by omega)
  have hbX1 : 2 ^ (63 - c1) * 2 ^ 64 * 2 ^ (c1 - c2) = 2 ^ (63 - c2) * 2 ^ 64 := by
    rw [← pow_add, ← pow_add, ← pow_add]; congr 1; omega
  have hbX2 : 2 ^ (64 - c1) * 2 ^ 64 * 2 ^ (c1 - c2) = 2 * (2 ^ (63 - c2) * 2 ^ 64) := by
    rw [← hX2, ← pow_add, ← pow_add, ← pow_add]; congr 1; omega
  have hpos : 0 < 2 ^ (c1 - c2) := Nat.two_pow_pos _
  have hdv1 : 2 ^ (63 - c2) * 2 ^ 64 ≤ b * 2 ^ (c1 - c2) := by
    rw [← hbX1]
    apply Nat.mul_le_mul_right
    have : 2 ^ (63 - c1) * 2 ^ 64 ≤ b / 2 ^ 64 * 2 ^ 64 := Nat.mul_le_mul_right _ hb1
    omega
  have hdv2 : b * 2 ^ (c1 - c2) < 2 * (2 ^ (63 - c2) * 2 ^ 64) := by
    rw [← hbX2]
    apply Nat.mul_lt_mul_of_pos_right _ hpos
    have : (b / 2 ^ 64 + 1) * 2 ^ 64 ≤ 2 ^ (64 - c1) * 2 ^ 64 := Nat.mul_le_mul_right _ hb2
    omega
  have haX1 : 2 ^ (63 - c2) * 2 ^ 64 ≤ a := by
    have : 2 ^ (63 - c2) * 2 ^ 64 ≤ a / 2 ^ 64 * 2 ^ 64 := Nat.mul_le_mul_right _ ha1
    omega
  have haX2 : a < 2 * (2 ^ (63 - c2) * 2 ^ 64) := by
    rw [← hX2]
    have : (a / 2 ^ 64 + 1) * 2 ^ 64 ≤ 2 ^ (64 - c2) * 2 ^ 64 := Nat.mul_le_mul_right _ ha2
    omega
  have hfuel : (0 + 1) * 2 ^ (c1 - c2 + 1) ≤ 2 ^ 64 := by
    rw [Nat.zero_add, Nat.one_mul]
    exact Nat.pow_le_pow_right (by norm_num) (by omega)
  refine ⟨hah0, hc, hc1, by omega, rfl, ?_, ha, ?_, ?_, hfuel⟩ <;> dsimp only <;> omega

/-- One run of the loop body takes the invariant for `j + 2` remaining
iterations to the invariant for `j + 1`. -/
theorem longDivInv_step (b : Nat) (st : LongDivState) (j : Nat)
    (h : LongDivInv b st (j + 1)) : LongDivInv b (longDivStep st) j := by
  obtain ⟨D, dv, q⟩ := st
  obtain ⟨h1, h2, h3, h4, h5, h6⟩ := h
  dsimp only at h1 h2 h3 h4 h5 h6
  have hdvk : dv = 2 * (b * 2 ^ j) := by rw [h1, pow_succ]; ring
  have hq2 : (q + 1) * 2 ^ (j + 1 + 1) = 2 * ((q + 1) * 2 ^ (j + 1)) := by
    rw [pow_succ 2 (j + 1)]; ring
  have hq3 : (q + 1) * 2 ^ (j + 1) = q * 2 ^ (j + 1) + 2 ^ (j + 1) := by ring
  have hpos : 0 < 2 ^ (j + 1) := Nat.two_pow_pos _
  have hq1 : 2 * q + 1 < 2 ^ 64 := by
    have : 2 ≤ 2 ^ (j + 1) := by
      calc 2 = 2 ^ 1 := by norm_num
        _ ≤ 2 ^ (j + 1) := Nat.pow_le_pow_right (by norm_num) (by omega)
    nlinarith
  have e1 : (2 * q + 1 + 1) * 2 ^ (j + 1) = 2 * ((q + 1) * 2 ^ (j + 1)) := by ring
  have e2 : (2 * q + 1) * 2 ^ (j + 1) = 2 * (q * 2 ^ (j + 1)) + 2 ^ (j + 1) := by ring
  rw [longDivStep_eq D dv q h3 h4 h5 (by omega) hq1]
  unfold LongDivInv
  by_cases hle : dv ≤ D
  · rw [if_pos hle]
    dsimp only
    refine ⟨by omega, by omega, by omega, by omega, by omega, by omega⟩
  · rw [if_neg hle]
    dsimp only
    refine ⟨by omega, by omega, by omega, by omega, by omega, by omega⟩

/-- The invariant holds before every iteration of the loop. -/
theorem longDivInv_iter (b : Nat) :
    ∀ k st j, k ≤ j → LongDivInv b st j → LongDivInv b (longDivLoop k st) (j - k) := by
  intro k
  induction k with
  | zero => intro st j _ h; exact h
  | succ k ih =>
    intro st j hk h
    unfold longDivLoop
    have hj : j = (j - 1) + 1 := by omega
    rw [hj] at h
    have h2 := ih (longDivStep st) (j - 1) (by omega) (longDivInv_step b st (j - 1) h)
    have : j - (k + 1) = j - 1 - k := by omega
    rw [this]
    exact h2

/-- The long-division branch of `__udivmodti4` runs the loop body `shift + 1`
times from the initial state and returns what the final state holds. -/
theorem udivmodWide_unfold (a b : Nat) (rem : Bool) (ha : a < 2 ^ 128) (hb : b < 2 ^ 128)
    (hh : highOf b ≠ 0) (hle : b ≤ a) :
    udivmodWide a b rem =
      .ok ((longDivStateAt a b (longDivShift a b + 1)).quotient,
           storeRem rem (longDivStateAt a b (longDivShift a b + 1)).dividend) := by
  obtain ⟨ha0, hc, hc1, _, _⟩ := longDiv_init a b ha hb hh hle
  unfold udivmodWide clzll longDivStateAt longDivShift
  rw [if_neg hh, if_neg ha0]
  generalize leadingZeros (highOf b) 64 = c1 at hc hc1 ⊢
  generalize leadingZeros (highOf a) 64 = c2 at hc ⊢
  have hshift : (c1 : Int) - (c2 : Int) = ((c1 - c2 : Nat) : Int) := by omega
  have hiter : (((c1 - c2 : Nat) : Int) + 1).toNat = (c1 - c2) + 1 := by omega
  simp only [bind, Except.bind, hshift, checkShift_ok 128 (c1 - c2) (by omega), hiter, pure,
    Except.pure]

theorem longDivStateAt_eq (a b k : Nat) (ha : a < 2 ^ 128) (hb : b < 2 ^ 128)
    (hh : highOf b ≠ 0) (hle : b ≤ a) :
    longDivStateAt a b k = longDivLoop k ⟨a, b * 2 ^ longDivShift a b, 0⟩ := by
  obtain ⟨_, _, _, hlt, _⟩ := longDiv_init a b ha hb hh hle
  have hshl : b <<< longDivShift a b % W128 = b * 2 ^ longDivShift a b := by
    rw [Nat.shiftLeft_eq]; exact Nat.mod_eq_of_lt hlt
  have hq0 : mkWords 0 0 = 0 := by decide
  unfold longDivStateAt
  rw [hshl, hq0]

/-- C14: in the long-division branch of `__udivmodti4`, before every iteration
of the loop (after `k ≤ shift` runs of the body, from a divisor with nonzero
high word that does not exceed the dividend) the mask
`(ti_int)(divisor - dividend - 1) >> 127`, computed with 128-bit wrapping
subtraction, is all ones when the running dividend is at least the shifted
divisor and zero otherwise.  The same is false of arbitrary 128-bit pairs: for
dividend `0` and divisor `2^127 + 1` the mask is all ones. -/
theorem longDivMask_on_reachable_states (a b : Nat) (ha : a < 2 ^ 128) (hb : b < 2 ^ 128)
    (hh : highOf b ≠ 0) (hle : b ≤ a) :
    (∀ k, k ≤ longDivShift a b →
        (longDivStateAt a b k).divisor = b * 2 ^ (longDivShift a b - k) ∧
        longDivMask (longDivStateAt a b k).dividend (longDivStateAt a b k).divisor =
          if (longDivStateAt a b k).divisor ≤ (longDivStateAt a b k).dividend
          then 2 ^ 128 - 1 else 0) ∧
      (∀ rem, udivmodWide a b rem =
        .ok ((longDivStateAt a b (longDivShift a b + 1)).quotient,
             storeRem rem (longDivStateAt a b (longDivShift a b + 1)).dividend)) ∧
      (longDivMask 0 (2 ^ 127 + 1) = 2 ^ 128 - 1 ∧ ¬(2 ^ 127 + 1 ≤ 0)) := by
  refine ⟨?_, fun rem => udivmodWide_unfold a b rem ha hb hh hle, by decide, by decide⟩
  intro k hk
  obtain ⟨_, _, _, _, hinv⟩ := longDiv_init a b ha hb hh hle
  have h := longDivInv_iter b k _ _ hk hinv
  rw [← longDivStateAt_eq a b k ha hb hh hle] at h
  obtain ⟨h1, h2, h3, h4, h5, _⟩ := h
  refine ⟨h1, ?_⟩
  exact longDivMask_eq _ _ h5 (by omega)

/-- C14 at a dividend and divisor that take 64 iterations. -/
theorem longDivMask_on_reachable_states_witness :
    (2 ^ 128 - 1 < 2 ^ 128 ∧ 2 ^ 64 + 1 < 2 ^ 128 ∧ highOf (2 ^ 64 + 1) ≠ 0 ∧
        2 ^ 64 + 1 ≤ 2 ^ 128 - 1) ∧
      ((∀ k, k ≤ longDivShift (2 ^ 128 - 1) (2 ^ 64 + 1) →
          (longDivStateAt (2 ^ 128 - 1) (2 ^ 64 + 1) k).divisor =
            (2 ^ 64 + 1) * 2 ^ (longDivShift (2 ^ 128 - 1) (2 ^ 64 + 1) - k) ∧
          longDivMask (longDivStateAt (2 ^ 128 - 1) (2 ^ 64 + 1) k).dividend
              (longDivStateAt (2 ^ 128 - 1) (2 ^ 64 + 1) k).divisor =
            if (longDivStateAt (2 ^ 128 - 1) (2 ^ 64 + 1) k).divisor ≤
                (longDivStateAt (2 ^ 128 - 1) (2 ^ 64 + 1) k).dividend
            then 2 ^ 128 - 1 else 0) ∧
        (∀ rem, udivmodWide (2 ^ 128 - 1) (2 ^ 64 + 1) rem =
          .ok ((longDivStateAt (2 ^ 128 - 1) (2 ^ 64 + 1)
                  (longDivShift (2 ^ 128 - 1) (2 ^ 64 + 1) + 1)).quotient,
               storeRem rem (longDivStateAt (2 ^ 128 - 1) (2 ^ 64 + 1)
                  (longDivShift (2 ^ 128 - 1) (2 ^ 64 + 1) + 1)).dividend)) ∧
        (longDivMask 0 (2 ^ 127 + 1) = 2 ^ 128 - 1 ∧ ¬(2 ^ 127 + 1 ≤ 0))) :=
  ⟨⟨by decide, by decide, by decide, by decide⟩,
    longDivMask_on_reachable_states (2 ^ 128 - 1) (2 ^ 64 + 1) (by decide) (by decide)
      (by decide) (by decide)⟩

/-- C15: in `__udivmodti4`, when the divisor has a nonzero high word and does
not exceed the dividend, the dividend's high word is nonzero too, so both
`__builtin_clzll` calls are defined; `shift` is between 0 and 63; shifting the
divisor left by `shift` loses no bit; and the loop runs `shift + 1 ≤ 64` times. -/
theorem longDiv_shift_in_range (a b : Nat) (ha : a < 2 ^ 128) (hb : b < 2 ^ 128)
    (hh : highOf b ≠ 0) (hle : b ≤ a) :
    highOf a ≠ 0 ∧
      clzll (highOf b) = .ok (leadingZeros (highOf b) 64) ∧
      clzll (highOf a) = .ok (leadingZeros (highOf a) 64) ∧
      (0 : Int) ≤ (leadingZeros (highOf b) 64 : Int) - (leadingZeros (highOf a) 64 : Int) ∧
      (leadingZeros (highOf b) 64 : Int) - (leadingZeros (highOf a) 64 : Int) ≤ 63 ∧
      (leadingZeros (highOf b) 64 : Int) - (leadingZeros (highOf a) 64 : Int) =
        (longDivShift a b : Int) ∧
      (b <<< longDivShift a b) % W128 = b * 2 ^ longDivShift a b ∧
      b * 2 ^ longDivShift a b < 2 ^ 128 ∧
      longDivShift a b + 1 ≤ 64 ∧
      ∀ rem, udivmodWide a b rem =
        .ok ((longDivLoop (longDivShift a b + 1) ⟨a, b * 2 ^ longDivShift a b, 0⟩).quotient,
             storeRem rem
               (longDivLoop (longDivShift a b + 1) ⟨a, b * 2 ^ longDivShift a b, 0⟩).dividend) := by
  obtain ⟨ha0, hc, hc1, hlt, _⟩ := longDiv_init a b ha hb hh hle
  have hsh : longDivShift a b = leadingZeros (highOf b) 64 - leadingZeros (highOf a) 64 := rfl
  refine ⟨ha0, ?_, ?_, by omega, by omega, by omega, ?_, hlt, by omega, ?_⟩
  · unfold clzll; rw [if_neg hh]
  · unfold clzll; rw [if_neg ha0]
  · rw [Nat.shiftLeft_eq]; exact Nat.mod_eq_of_lt hlt
  · intro rem
    rw [udivmodWide_unfold a b rem ha hb hh hle, longDivStateAt_eq a b _ ha hb hh hle]

set_option maxRecDepth 20000 in
/-- C15 at the largest shift, 63. -/
theorem longDiv_shift_in_range_witness :
    (2 ^ 128 - 1 < 2 ^ 128 ∧ 2 ^ 64 + 1 < 2 ^ 128 ∧ highOf (2 ^ 64 + 1) ≠ 0 ∧
        2 ^ 64 + 1 ≤ 2 ^ 128 - 1) ∧
      (highOf (2 ^ 128 - 1) ≠ 0 ∧
        clzll (highOf (2 ^ 64 + 1)) = .ok (leadingZeros (highOf (2 ^ 64 + 1)) 64) ∧
        clzll (highOf (2 ^ 128 - 1)) = .ok (leadingZeros (highOf (2 ^ 128 - 1)) 64) ∧
        (0 : Int) ≤ (leadingZeros (highOf (2 ^ 64 + 1)) 64 : Int) -
          (leadingZeros (highOf (2 ^ 128 - 1)) 64 : Int) ∧
        (leadingZeros (highOf (2 ^ 64 + 1)) 64 : Int) -
          (leadingZeros (highOf (2 ^ 128 - 1)) 64 : Int) ≤ 63 ∧
        (leadingZeros (highOf (2 ^ 64 + 1)) 64 : Int) -
            (leadingZeros (highOf (2 ^ 128 - 1)) 64 : Int) =
          (longDivShift (2 ^ 128 - 1) (2 ^ 64 + 1) : Int) ∧
        ((2 ^ 64 + 1) <<< longDivShift (2 ^ 128 - 1) (2 ^ 64 + 1)) % W128 =
          (2 ^ 64 + 1) * 2 ^ longDivShift (2 ^ 128 - 1) (2 ^ 64 + 1) ∧
        (2 ^ 64 + 1) * 2 ^ longDivShift (2 ^ 128 - 1) (2 ^ 64 + 1) < 2 ^ 128 ∧
        longDivShift (2 ^ 128 - 1) (2 ^ 64 + 1) + 1 ≤ 64 ∧
        ∀ rem, udivmodWide (2 ^ 128 - 1) (2 ^ 64 + 1) rem =
          .ok ((longDivLoop (longDivShift (2 ^ 128 - 1) (2 ^ 64 + 1) + 1)
                  ⟨2 ^ 128 - 1,
                   (2 ^ 64 + 1) * 2 ^ longDivShift (2 ^ 128 - 1) (2 ^ 64 + 1), 0⟩).quotient,
               storeRem rem
                 (longDivLoop (longDivShift (2 ^ 128 - 1) (2 ^ 64 + 1) + 1)
                  ⟨2 ^ 128 - 1,
                   (2 ^ 64 + 1) * 2 ^ longDivShift (2 ^ 128 - 1) (2 ^ 64 + 1), 0⟩).dividend)) ∧
    longDivShift (2 ^ 128 - 1) (2 ^ 64 + 1) = 63 :=
  ⟨⟨by decide, by decide, by decide, by decide⟩,
    longDiv_shift_in_range (2 ^ 128 - 1) (2 ^ 64 + 1) (by decide) (by decide) (by decide)
      (by decide), by decide⟩

/-- C16: in `__udivmodti4` with a nonzero divisor whose high word is zero and
which does not exceed the dividend, the call to `udiv128by64to64` made in either
sub-case meets the divider's precondition: the high dividend word it passes
(`dividend.s.high` in the first sub-case, `dividend.s.high % divisor.s.low` in
the second) is below `divisor.s.low`, so the quotient of the 128-by-64 step fits
in 64 bits and the hardware divide raises no divide error.  (This branch is
entered only when the divisor does not exceed the dividend; the statement does
not need that.) -/
theorem narrow_calls_meet_precondition (x86_64 : Bool) (a b : Nat) (rem : Bool)
    (hb0 : b ≠ 0) (hbh : highOf b = 0) (hb : b < 2 ^ 128) :
    udivmodNarrow x86_64 a b rem =
        (do
          let (ql, rl) ← udiv128by64to64 x86_64 (narrowCallArgs a b).1 (narrowCallArgs a b).2.1
            (narrowCallArgs a b).2.2
          pure (mkWords ql (if highOf a < lowOf b then 0 else highOf a / lowOf b),
                storeRem rem (mkWords rl 0))) ∧
      (narrowCallArgs a b).2.2 = lowOf b ∧ lowOf b ≠ 0 ∧ lowOf b < 2 ^ 64 ∧
      (narrowCallArgs a b).1 < (narrowCallArgs a b).2.2 ∧
      (narrowCallArgs a b).2.1 < 2 ^ 64 ∧
      (highOf a < lowOf b → (narrowCallArgs a b).1 = highOf a) ∧
      (¬highOf a < lowOf b → (narrowCallArgs a b).1 = highOf a % lowOf b) ∧
      ((narrowCallArgs a b).1 * 2 ^ 64 + (narrowCallArgs a b).2.1) / (narrowCallArgs a b).2.2
        < 2 ^ 64 ∧
      divq (narrowCallArgs a b).1 (narrowCallArgs a b).2.1 (narrowCallArgs a b).2.2 =
        udiv128by64to64default (narrowCallArgs a b).1 (narrowCallArgs a b).2.1
          (narrowCallArgs a b).2.2 := by
  have hblt : b < 2 ^ 64 := by unfold highOf W64 at hbh; omega
  have hlb : lowOf b = b := by unfold lowOf W64; omega
  have hbpos : 0 < b := by omega
  have hlb0 : lowOf b ≠ 0 := by rw [hlb]; exact hb0
  have hv : (narrowCallArgs a b).2.2 = lowOf b := by
    unfold narrowCallArgs; split_ifs <;> rfl
  have hu0 : (narrowCallArgs a b).2.1 < 2 ^ 64 := by
    unfold narrowCallArgs; split_ifs <;> exact Nat.mod_lt _ (by norm_num)
  have hfirst : highOf a < lowOf b → (narrowCallArgs a b).1 = highOf a := by
    intro h; unfold narrowCallArgs; rw [if_pos h]
  have hsecond : ¬highOf a < lowOf b → (narrowCallArgs a b).1 = highOf a % lowOf b := by
    intro h
    have hr : highOf a % lowOf b < 2 ^ 64 := by
      have := Nat.mod_lt (highOf a) (by omega : 0 < lowOf b)
      omega
    unfold narrowCallArgs; rw [if_neg h]
    show highOf (mkWords (lowOf a) (highOf a % lowOf b)) = _
    generalize highOf a % lowOf b = r at hr
    have : lowOf a < 2 ^ 64 := Nat.mod_lt _ (by norm_num)
    generalize lowOf a = l at this
    unfold highOf mkWords W64; omega
  have hu1 : (narrowCallArgs a b).1 < (narrowCallArgs a b).2.2 := by
    rw [hv]
    by_cases h : highOf a < lowOf b
    · rw [hfirst h]; exact h
    · rw [hsecond h]; exact Nat.mod_lt _ (by omega)
  have hq : ((narrowCallArgs a b).1 * 2 ^ 64 + (narrowCallArgs a b).2.1) /
      (narrowCallArgs a b).2.2 < 2 ^ 64 := by
    rw [Nat.div_lt_iff_lt_mul (by omega)]
    have : ((narrowCallArgs a b).1 + 1) * 2 ^ 64 ≤ (narrowCallArgs a b).2.2 * 2 ^ 64 :=
      Nat.mul_le_mul_right _ hu1
    have e : ((narrowCallArgs a b).1 + 1) * 2 ^ 64 = (narrowCallArgs a b).1 * 2 ^ 64 + 2 ^ 64 := by
      ring
    rw [Nat.mul_comm (2 ^ 64)]
    omega
  have hrefine := udiv128by64to64default_eq (narrowCallArgs a b).1 (narrowCallArgs a b).2.1
    (narrowCallArgs a b).2.2 (by rw [hv]; exact hlb0) (by rw [hv, hlb]; exact hblt) hu1 hu0
  have hdivq := udiv128by64to64_eq true (narrowCallArgs a b).1 (narrowCallArgs a b).2.1
    (narrowCallArgs a b).2.2 (by rw [hv]; exact hlb0) (by rw [hv, hlb]; exact hblt) hu1 hu0
  refine ⟨?_, hv, hlb0, by rw [hlb]; exact hblt, hu1, hu0, hfirst, hsecond, hq, ?_⟩
  · unfold udivmodNarrow narrowCallArgs checkedDiv
    by_cases h : highOf a < lowOf b
    · simp only [if_pos h]
    · simp only [if_neg h, if_neg hlb0]
      rfl
  · rw [hrefine]; exact hdivq

/-- C16 at a dividend of the second sub-case (`dividend.s.high ≥ divisor.s.low`). -/
theorem narrow_calls_meet_precondition_witness :
    (2 ^ 64 - 1 ≠ 0 ∧ highOf (2 ^ 64 - 1) = 0 ∧ 2 ^ 64 - 1 < 2 ^ 128) ∧
      (udivmodNarrow false (2 ^ 128 - 1) (2 ^ 64 - 1) true =
          (do
            let (ql, rl) ← udiv128by64to64 false (narrowCallArgs (2 ^ 128 - 1) (2 ^ 64 - 1)).1
              (narrowCallArgs (2 ^ 128 - 1) (2 ^ 64 - 1)).2.1
              (narrowCallArgs (2 ^ 128 - 1) (2 ^ 64 - 1)).2.2
            pure (mkWords ql (if highOf (2 ^ 128 - 1) < lowOf (2 ^ 64 - 1) then 0
                    else highOf (2 ^ 128 - 1) / lowOf (2 ^ 64 - 1)),
                  storeRem true (mkWords rl 0))) ∧
        (narrowCallArgs (2 ^ 128 - 1) (2 ^ 64 - 1)).2.2 = lowOf (2 ^ 64 - 1) ∧
        lowOf (2 ^ 64 - 1) ≠ 0 ∧ lowOf (2 ^ 64 - 1) < 2 ^ 64 ∧
        (narrowCallArgs (2 ^ 128 - 1) (2 ^ 64 - 1)).1 <
          (narrowCallArgs (2 ^ 128 - 1) (2 ^ 64 - 1)).2.2 ∧
        (narrowCallArgs (2 ^ 128 - 1) (2 ^ 64 - 1)).2.1 < 2 ^ 64 ∧
        (highOf (2 ^ 128 - 1) < lowOf (2 ^ 64 - 1) →
          (narrowCallArgs (2 ^ 128 - 1) (2 ^ 64 - 1)).1 = highOf (2 ^ 128 - 1)) ∧
        (¬highOf (2 ^ 128 - 1) < lowOf (2 ^ 64 - 1) →
          (narrowCallArgs (2 ^ 128 - 1) (2 ^ 64 - 1)).1 =
            highOf (2 ^ 128 - 1) % lowOf (2 ^ 64 - 1)) ∧
        ((narrowCallArgs (2 ^ 128 - 1) (2 ^ 64 - 1)).1 * 2 ^ 64 +
            (narrowCallArgs (2 ^ 128 - 1) (2 ^ 64 - 1)).2.1) /
          (narrowCallArgs (2 ^ 128 - 1) (2 ^ 64 - 1)).2.2 < 2 ^ 64 ∧
        divq (narrowCallArgs (2 ^ 128 - 1) (2 ^ 64 - 1)).1
            (narrowCallArgs (2 ^ 128 - 1) (2 ^ 64 - 1)).2.1
            (narrowCallArgs (2 ^ 128 - 1) (2 ^ 64 - 1)).2.2 =
          udiv128by64to64default (narrowCallArgs (2 ^ 128 - 1) (2 ^ 64 - 1)).1
            (narrowCallArgs (2 ^ 128 - 1) (2 ^ 64 - 1)).2.1
            (narrowCallArgs (2 ^ 128 - 1) (2 ^ 64 - 1)).2.2) :=
  ⟨⟨by decide, by decide, by decide⟩,
    narrow_calls_meet_precondition false (2 ^ 128 - 1) (2 ^ 64 - 1) true (by decide) (by decide)
      (by decide)⟩

end BigNum
